import Mathlib

/-!
Verification development for the laibrary update pipeline.

The definitions below are a shallow embedding of the Python sources:
* `src/laibrary/nodes/committer.py` (`_find_similar_lines`, `_apply_edits`,
  `_commit_multi`),
* `src/laibrary/workflow.py` (`_should_retry`, `_retry_prep` and the
  committer retry loop of the graph),
* `src/laibrary/config.py` (`MAX_RETRIES`),
* `src/laibrary/queue_manager.py` (`MessageQueueManager`).

Strings are modelled as `List Char`; Python string primitives
(`in`, `str.count`, `str.replace(_, _, 1)`, `str.split`, `str.strip`,
`str.lower`, slicing) are given as explicit executable functions.
-/

namespace Laibrary

/-! ## Python string primitives -/

/-- Whitespace characters recognised by Python `str.strip()` / `str.split()`
(ASCII fragment, which is all the sources ever feed them). -/
def isPyWs (c : Char) : Bool :=
  c = ' ' || c = '\t' || c = '\n' || c = '\r' || c = '\x0b' || c = '\x0c'

/-- Python `s.strip()`: drop whitespace from both ends. -/
def pyStrip (s : List Char) : List Char :=
  ((s.dropWhile isPyWs).reverse.dropWhile isPyWs).reverse

/-- Helper for `pySplitWs`: current word accumulator is `acc` (reversed). -/
def pySplitWsAux : List Char → List Char → List (List Char)
  | [], acc => if acc.isEmpty then [] else [acc.reverse]
  | c :: rest, acc =>
    if isPyWs c then
      if acc.isEmpty then pySplitWsAux rest []
      else acc.reverse :: pySplitWsAux rest []
    else pySplitWsAux rest (c :: acc)

/-- Python `s.split()` (no separator): split on whitespace runs, no empties. -/
def pySplitWs (s : List Char) : List (List Char) :=
  pySplitWsAux s []

/-- Python `s.split("\n")`: split at every newline, keeping empty pieces. -/
def pySplitNl : List Char → List (List Char)
  | [] => [[]]
  | c :: rest =>
    if c = '\n' then [] :: pySplitNl rest
    else
      match pySplitNl rest with
      | [] => [[c]]
      | h :: t => (c :: h) :: t

/-- Python `s.lower()` (ASCII fragment). -/
def pyLower (s : List Char) : List Char :=
  s.map Char.toLower

/-- Python `"\n".join(parts)`. -/
def joinNl (parts : List (List Char)) : List Char :=
  List.intercalate ['\n'] parts

/-- Python `pat in s`: substring membership. -/
def occursIn (pat : List Char) : List Char → Bool
  | [] => pat.isEmpty
  | c :: rest => pat.isPrefixOf (c :: rest) || occursIn pat rest

/-- Scanner for Python `s.count(pat)` with a non-empty pattern `p :: ps`:
left-to-right, non-overlapping.  `skip` is the number of characters still
belonging to the previous match (so that the next match may only start
after it); a match at the current position counts one occurrence and
skips the remaining `ps.length` matched characters. -/
def pyCountAux (p : Char) (ps : List Char) : Nat → List Char → Nat
  | _, [] => 0
  | skip + 1, _ :: rest => pyCountAux p ps skip rest
  | 0, c :: rest =>
    if (p :: ps).isPrefixOf (c :: rest) then 1 + pyCountAux p ps ps.length rest
    else pyCountAux p ps 0 rest

/-- Python `s.count(pat)` for a non-empty pattern `p :: ps`:
number of non-overlapping occurrences, scanning left to right. -/
def pyCountNE (p : Char) (ps s : List Char) : Nat :=
  pyCountAux p ps 0 s

/-- Python `s.count(pat)` (for the empty pattern Python returns `len s + 1`). -/
def pyCount (pat s : List Char) : Nat :=
  match pat with
  | [] => s.length + 1
  | p :: ps => pyCountNE p ps s

/-- Python `s.replace(pat, rep, 1)` for a non-empty pattern: replace the
leftmost occurrence, if any. -/
def replaceOneNE (p : Char) (ps rep : List Char) : List Char → List Char
  | [] => []
  | c :: rest =>
    if (p :: ps).isPrefixOf (c :: rest) then rep ++ rest.drop ps.length
    else c :: replaceOneNE p ps rep rest

/-- Python `s.replace(pat, rep, 1)` (empty pattern: insert at the front). -/
def replaceOne (pat rep s : List Char) : List Char :=
  match pat with
  | [] => rep ++ s
  | p :: ps => replaceOneNE p ps rep s

/-- Decimal rendering of a natural number (Python f-string `{n}`). -/
def natRepr (n : Nat) : List Char :=
  Nat.toDigits 10 n

/-- Python `s.startswith(pat)`. -/
def startsWith (pat s : List Char) : Bool :=
  pat.isPrefixOf s

/-! ## Data model (`schemas.py` / usage in `committer.py`)

`DocumentUpdate` is embedded with exactly the fields `_apply_edits` and
`_commit_multi` read: the target path, the ordered search/replace edit
list, the `create_if_missing` / `delete_file` flags. -/

/-- One search/replace edit (`edit.search_block` / `edit.replace_block`). -/
structure Edit where
  search_block : List Char
  replace_block : List Char
deriving DecidableEq, Repr

/-- A `DocumentUpdate` as consumed by the committer. -/
structure DocumentUpdate where
  target_file : List Char
  edits : List Edit
  create_if_missing : Bool := false
  delete_file : Bool := false
deriving DecidableEq, Repr

/-- `EditApplicationError` (`exceptions.py`): the message passed to
`Exception.__init__` plus the `file_path` / `search_block` attributes. -/
structure EditApplicationError where
  message : List Char
  file_path : List Char
  search_block : List Char
deriving DecidableEq, Repr

/-! ## `_find_similar_lines` and the error messages of `_apply_edits` -/

/-- The `for line_num, line in enumerate(lines, 1)` loop of
`_find_similar_lines`, with the accumulated `suggestions` list and the
`break` once `max_suggestions` entries are collected. -/
def findSimilarAux (searchWords : List (List Char)) (maxSuggestions : Nat)
    (lineNum : Nat) (acc : List (List Char)) :
    List (List Char) → List (List Char)
  | [] => acc
  | line :: rest =>
    if searchWords.any (fun w => occursIn (pyLower w) (pyLower line)) then
      let acc2 := acc ++ ["Line ".toList ++ natRepr lineNum ++ ": ".toList ++ line.take 80]
      if maxSuggestions ≤ acc2.length then acc2
      else findSimilarAux searchWords maxSuggestions (lineNum + 1) acc2 rest
    else findSimilarAux searchWords maxSuggestions (lineNum + 1) acc rest

/-- `_find_similar_lines(content, search_block, max_suggestions)`. -/
def findSimilarLines (content search_block : List Char) (maxSuggestions : Nat) :
    List (List Char) :=
  let searchWords := (pySplitWs (pyStrip search_block)).take 5
  if searchWords.isEmpty then []
  else findSimilarAux searchWords maxSuggestions 1 [] (pySplitNl content)

/-- The `f"Line {i+1}: {line[:60]}"` document preview of `_apply_edits`. -/
def previewLines (lines : List (List Char)) : List (List Char) :=
  (lines.take 10).enum.map
    (fun p => "Line ".toList ++ natRepr (p.1 + 1) ++ ": ".toList ++ p.2.take 60)

/-- The `error_msg` built by `_apply_edits` when `search_block not in result`
(0-based edit index `i`, current buffer `result`). -/
def notFoundMsg (i : Nat) (result search_block : List Char) : List Char :=
  let base := "Edit ".toList ++ natRepr (i + 1) ++
    ": search_block not found in document".toList
  let similar := findSimilarLines result search_block 5
  if similar.isEmpty then
    base ++ "\n\nDocument starts with:\n".toList ++ joinNl (previewLines (pySplitNl result))
  else
    base ++ "\n\nSimilar lines found:\n".toList ++ joinNl similar ++
      "\n\nEnsure exact character-by-character match including whitespace, line breaks, and punctuation.".toList

/-- The message of `_apply_edits` when the search block occurs `n > 1` times. -/
def ambiguousMsg (i : Nat) (n : Nat) : List Char :=
  "Edit ".toList ++ natRepr (i + 1) ++
    ": search_block appears multiple times (".toList ++ natRepr n ++
    " occurrences)".toList

/-! ## `_apply_edits` -/

/-- The `for i, edit in enumerate(update.edits)` loop of `_apply_edits`:
`tf` is `update.target_file`, `i` the index of the next edit, `result` the
accumulated buffer. -/
def applyEditsFrom (tf : List Char) (i : Nat) (result : List Char) :
    List Edit → Except EditApplicationError (List Char)
  | [] => .ok result
  | e :: rest =>
    if e.search_block = [] then
      applyEditsFrom tf (i + 1) (result ++ e.replace_block) rest
    else if occursIn e.search_block result = false then
      .error ⟨notFoundMsg i result e.search_block, tf, e.search_block⟩
    else if 1 < pyCount e.search_block result then
      .error ⟨ambiguousMsg i (pyCount e.search_block result), tf, e.search_block⟩
    else
      applyEditsFrom tf (i + 1)
        (replaceOne e.search_block e.replace_block result) rest

/-- `_apply_edits(content, update)`. -/
def applyEdits (content : List Char) (update : DocumentUpdate) :
    Except EditApplicationError (List Char) :=
  applyEditsFrom update.target_file 0 content update.edits

/-! ## `_commit_multi` (`committer.py`)

The `IsolatedGitRepo` (`git_wrapper.py`) is embedded as an association
list from paths to contents; `get_file_content` returns `none` for a
missing file and `file_exists` tests existence.  The write phase's calls
`repo.delete_file`, `repo.write_file` and `repo.add_and_commit_multiple`
are recorded as an explicit trace of operations, so that "nothing has
been written" is the statement that the trace is empty. -/

/-- The on-disk repository: path ↦ content. -/
structure Repo where
  files : List (List Char × List Char)
deriving DecidableEq, Repr

/-- `repo.get_file_content(path)`: content, or `none` if missing. -/
def Repo.get_file_content (r : Repo) (path : List Char) : Option (List Char) :=
  (r.files.find? (fun pc => pc.1 = path)).map (·.2)

/-- `repo.file_exists(path)`. -/
def Repo.file_exists (r : Repo) (path : List Char) : Bool :=
  (r.get_file_content path).isSome

/-- One side-effecting repository call made by the write phase. -/
inductive RepoOp where
  | deleteFile (path : List Char)
  | writeFile (path content : List Char)
  | commitMultiple (files_written : List (List Char)) (message : List Char)
      (files_to_delete : List (List Char))
deriving DecidableEq, Repr

/-- What validating a single update yields: a pending deletion or the
new content held "in the scratch map keyed by path". -/
inductive ValAction where
  | del (path : List Char)
  | write (path content : List Char)
deriving DecidableEq, Repr

/-- `"Cannot delete {file}: file not found"`. -/
def deleteMissingMsg (tf : List Char) : List Char :=
  "Cannot delete ".toList ++ tf ++ ": file not found".toList

/-- `"File '{file}' does not exist and create_if_missing is False"`. -/
def createMissingMsg (tf : List Char) : List Char :=
  "File '".toList ++ tf ++ "' does not exist and create_if_missing is False".toList

/-- The guardrail message for creation outside `projects/`. -/
def guardrailMsg (tf : List Char) : List Char :=
  "New files can only be created under 'projects/' directory. Cannot create: ".toList ++ tf

/-- The body of the Step-1 validation loop of `_commit_multi` for one
update: deletion-existence check, missing-file / `create_if_missing` /
`projects/` guardrail checks, then `_apply_edits` in memory.  An
`EditApplicationError e` surfaces as `str(e)`, i.e. its message. -/
def validateUpdate (repo : Repo) (u : DocumentUpdate) :
    Except (List Char) ValAction :=
  if u.delete_file then
    if repo.file_exists u.target_file = false then
      .error (deleteMissingMsg u.target_file)
    else .ok (.del u.target_file)
  else
    match repo.get_file_content u.target_file with
    | some existing_content =>
      match applyEdits existing_content u with
      | .error e => .error e.message
      | .ok new_content => .ok (.write u.target_file new_content)
    | none =>
      if u.create_if_missing = false then
        .error (createMissingMsg u.target_file)
      else if startsWith "projects/".toList u.target_file = false then
        .error (guardrailMsg u.target_file)
      else
        match applyEdits [] u with
        | .error e => .error e.message
        | .ok new_content => .ok (.write u.target_file new_content)

/-- Python `dict` insertion: overwrite in place if the key is present
(keeping its original position), otherwise append. -/
def dictInsert (k v : List Char) : List (List Char × List Char) →
    List (List Char × List Char)
  | [] => [(k, v)]
  | (k', v') :: rest =>
    if k' = k then (k, v) :: rest else (k', v') :: dictInsert k v rest

/-- Step 1 of `_commit_multi`: validate every update in `enumerate` order,
accumulating `validated_contents` and `files_to_delete`; abort with
`(error, idx)` on the first failure. -/
def validateAll (repo : Repo) :
    List DocumentUpdate → Nat → List (List Char × List Char) → List (List Char) →
    Except (List Char × Nat) (List (List Char × List Char) × List (List Char))
  | [], _, validated_contents, files_to_delete =>
    .ok (validated_contents, files_to_delete)
  | u :: rest, idx, validated_contents, files_to_delete =>
    match validateUpdate repo u with
    | .error e => .error (e, idx)
    | .ok (.del p) =>
      validateAll repo rest (idx + 1) validated_contents (files_to_delete ++ [p])
    | .ok (.write p c) =>
      validateAll repo rest (idx + 1) (dictInsert p c validated_contents) files_to_delete

/-- The `(success, error_message, failed_file_index)` result of
`_commit_multi`. -/
structure MultiResult where
  success : Bool
  error : Option (List Char)
  failed_index : Option Nat
deriving DecidableEq, Repr

/-- `_commit_multi(updates, commit_message, repo, data_dir)`: validate all
updates in memory, then (only if every update validated) delete the files
marked for deletion, write every validated content and issue one commit.
The second component is the trace of repository write-phase calls. -/
def commitMulti (updates : List DocumentUpdate) (commit_message : List Char)
    (repo : Repo) : MultiResult × List RepoOp :=
  match validateAll repo updates 0 [] [] with
  | .error (e, idx) => (⟨false, some e, some idx⟩, [])
  | .ok (validated_contents, files_to_delete) =>
    let deleteOps := files_to_delete.map RepoOp.deleteFile
    let writeOps := validated_contents.map (fun pc => RepoOp.writeFile pc.1 pc.2)
    let files_written := files_to_delete ++ validated_contents.map (·.1)
    (⟨true, none, none⟩,
      deleteOps ++ writeOps ++
        [RepoOp.commitMultiple files_written commit_message files_to_delete])

/-! ## The retry decision (`workflow.py`, `config.py`)

`_should_retry` reads only `committed`, `error` and `retry_count` from the
pipeline state, so the embedding carries exactly those fields.  Python
truthiness of `state.get("error")` (absent, `None` or the empty string all
count as false) is spelled out. -/

/-- `MAX_RETRIES` (`config.py`). -/
def MAX_RETRIES : Nat := 3

/-- The slice of `PKMState` that `_should_retry` / `_retry_prep` touch. -/
structure RetryState where
  committed : Bool
  error : Option (List Char)
  retry_count : Nat
deriving DecidableEq, Repr

/-- The first of the two substrings `_should_retry` looks for. -/
def notFoundPhrase : List Char := "search_block not found".toList

/-- The second substring `_should_retry` looks for. -/
def multiplePhrase : List Char := "search_block appears multiple times".toList

/-- `_should_retry(state)`: `"end"` on success or a missing/empty error;
`"retry"` exactly when the error text contains one of the two retryable
phrases and `retry_count < MAX_RETRIES`. -/
def should_retry (s : RetryState) : String :=
  if s.committed then "end"
  else
    match s.error with
    | none => "end"
    | some e =>
      if e = [] then "end"
      else if occursIn notFoundPhrase e || occursIn multiplePhrase e then
        if s.retry_count < MAX_RETRIES then "retry" else "end"
      else "end"

/-- `_retry_prep(state)`: clear the error, bump the retry counter (the
cleared `document_update(s)` fields are not part of `RetryState`). -/
def retry_prep (s : RetryState) : RetryState :=
  { s with error := none, retry_count := s.retry_count + 1 }

/-- Outcome of one architect→committer pass, abstracting the generative
stage: the committer either returns `{**state, "committed": True}` or
`{**state, "error": msg, ...}`. -/
inductive Outcome where
  | success
  | failure (err : List Char)
deriving DecidableEq, Repr

/-- How a committer pass updates the retry-relevant state fields. -/
def applyOutcome (s : RetryState) : Outcome → RetryState
  | .success => { s with committed := true }
  | .failure e => { s with error := some e }

/-- The committer ↔ retry_prep loop of the workflow graph: run attempt
`k` (its outcome given by `outcomes k`), consult `_should_retry`, and on
`"retry"` run `_retry_prep` and loop back; `fuel` bounds the number of
attempts so the recursion is structural, and `none` means the fuel was
exhausted before the loop ended. -/
def runTail (outcomes : Nat → Outcome) : Nat → RetryState → Nat →
    Option RetryState
  | _, _, 0 => none
  | k, s, fuel + 1 =>
    let s1 := applyOutcome s (outcomes k)
    if should_retry s1 = "retry" then runTail outcomes (k + 1) (retry_prep s1) fuel
    else some s1

/-! ## The message queue (`queue_manager.py`)

`MessageQueueManager` runs on a single asyncio event loop, so its
behaviour is an interleaving of atomic segments separated by `await`
suspension points.  The embedding is a labelled transition system: the
state records the `asyncio.Queue` contents, its unfinished-task counter
(`put` minus `task_done`, which is what `queue.join()` waits on), the
`messages` dict in insertion order, `next_message_id`, the `_shutdown`
flag, the control point of the worker coroutine and the control point of
a (single) `shutdown` call.  Each `Event` is one such atomic segment of
the Python code; `step` returns `none` when the event is not enabled in
the given state. -/

/-- `MessageStatus` (`queue_manager.py`). -/
inductive MessageStatus where
  | queued
  | processing
  | completed
  | failed
deriving DecidableEq, Repr

/-- `QueuedMessage` (`queue_manager.py`); the `result` payload is kept
abstract as an opaque string. -/
structure QueuedMessage where
  message_id : Nat
  content : List Char
  status : MessageStatus
  error : Option (List Char) := none
  result : Option (List Char) := none
deriving DecidableEq, Repr

/-- Control point of the `_process_queue` worker coroutine.
`idle` covers both "no task was ever created" and "the task is done". -/
inductive WorkerLoc where
  | idle
  | loopTop
  | gettingMsg
  | processing (message_id : Nat)
deriving DecidableEq, Repr

/-- Control point of the (at most one) `shutdown(timeout)` call. -/
inductive ShutdownLoc where
  | notCalled
  | joining
  | cancelling
  | finished
deriving DecidableEq, Repr

/-- The queue-manager state between suspension points. -/
structure QMState where
  queue : List Nat
  unfinished : Nat
  messages : List QueuedMessage
  next_message_id : Nat
  worker : WorkerLoc
  shutdown_flag : Bool
  shLoc : ShutdownLoc
deriving DecidableEq, Repr

/-- The initial state built by `MessageQueueManager.__init__`. -/
def initQM : QMState :=
  { queue := [], unfinished := 0, messages := [], next_message_id := 1,
    worker := .idle, shutdown_flag := false, shLoc := .notCalled }

/-- One atomic segment of the queue manager's code. -/
inductive Event where
  /-- `enqueue_message(content)`: assign the next id, record a `QUEUED`
  entry, `queue.put`, and start the worker task if it is not running. -/
  | enqueue (content : List Char)
  /-- The worker's `while not self._shutdown` check. -/
  | workerLoopCheck
  /-- `await wait_for(queue.get(), 1.0)` returns an id (queue non-empty):
  pop it and set that message's status to `PROCESSING`. -/
  | workerGet
  /-- `wait_for` times out after 1s with the queue still empty. -/
  | workerGetTimeout
  /-- `session.send_message` returns: status `COMPLETED`, store the
  result, `task_done`, back to the loop top. -/
  | finishOk (result : List Char)
  /-- `session.send_message` raises: status `FAILED`, store the error,
  `task_done`, back to the loop top. -/
  | finishFail (err : List Char)
  /-- `shutdown(timeout)` entry: set `_shutdown = True`, start awaiting
  `wait_for(queue.join(), timeout)`. -/
  | shutdownCall
  /-- `queue.join()` returns (all puts matched by `task_done`). -/
  | joinDone
  /-- `wait_for(queue.join(), timeout)` times out. -/
  | joinTimeout
  /-- `worker_task.cancel()` followed by `await worker_task`: the
  cancellation lands at the worker's await point (or the worker exits on
  its own via the flag); a `CancelledError` is not an `Exception`, so a
  message being processed keeps status `PROCESSING`, and the inner
  `finally` still runs `task_done`. -/
  | cancelFinish
deriving DecidableEq, Repr

/-- Update the status (and optionally error/result) of message `id`. -/
def setStatus (id : Nat) (st : MessageStatus) (err res : Option (List Char)) :
    List QueuedMessage → List QueuedMessage :=
  List.map (fun m =>
    if m.message_id = id then
      { m with status := st,
               error := err.elim m.error some,
               result := res.elim m.result some }
    else m)

/-- The transition function of the queue manager. -/
def step (s : QMState) : Event → Option QMState
  | .enqueue content =>
    let id := s.next_message_id
    some { s with
      next_message_id := id + 1,
      messages := s.messages ++ [{ message_id := id, content := content, status := .queued }],
      queue := s.queue ++ [id],
      unfinished := s.unfinished + 1,
      worker := if s.worker = .idle then .loopTop else s.worker }
  | .workerLoopCheck =>
    match s.worker with
    | .loopTop => some { s with worker := if s.shutdown_flag then .idle else .gettingMsg }
    | _ => none
  | .workerGet =>
    match s.worker, s.queue with
    | .gettingMsg, id :: rest =>
      some { s with queue := rest, worker := .processing id,
                    messages := setStatus id .processing none none s.messages }
    | _, _ => none
  | .workerGetTimeout =>
    match s.worker, s.queue with
    | .gettingMsg, [] => some { s with worker := .loopTop }
    | _, _ => none
  | .finishOk result =>
    match s.worker with
    | .processing id =>
      some { s with worker := .loopTop, unfinished := s.unfinished - 1,
                    messages := setStatus id .completed none (some result) s.messages }
    | _ => none
  | .finishFail err =>
    match s.worker with
    | .processing id =>
      some { s with worker := .loopTop, unfinished := s.unfinished - 1,
                    messages := setStatus id .failed (some err) none s.messages }
    | _ => none
  | .shutdownCall =>
    match s.shLoc with
    | .notCalled => some { s with shutdown_flag := true, shLoc := .joining }
    | _ => none
  | .joinDone =>
    match s.shLoc with
    | .joining => if s.unfinished = 0 then some { s with shLoc := .cancelling } else none
    | _ => none
  | .joinTimeout =>
    match s.shLoc with
    | .joining => some { s with shLoc := .cancelling }
    | _ => none
  | .cancelFinish =>
    match s.shLoc with
    | .cancelling =>
      match s.worker with
      | .processing _ =>
        some { s with shLoc := .finished, worker := .idle,
                      unfinished := s.unfinished - 1 }
      | _ => some { s with shLoc := .finished, worker := .idle }
    | _ => none

/-- Run a list of events from a state (`none` if any event is disabled). -/
def runTrace (s : QMState) : List Event → Option QMState
  | [] => some s
  | e :: rest =>
    match step s e with
    | none => none
    | some s' => runTrace s' rest

/-- Status of message `id` in a message list (first `find?` match, which
is how `self.messages[message_id]` resolves, the ids being unique). -/
def statusOfL (msgs : List QueuedMessage) (id : Nat) : Option MessageStatus :=
  (msgs.find? (fun m => m.message_id = id)).map (·.status)

/-- Status of message `id` in state `s`. -/
def statusOf (s : QMState) (id : Nat) : Option MessageStatus :=
  statusOfL s.messages id

/-- `id` is the unique message currently holding `PROCESSING` status. -/
def procUnique (s : QMState) (id : Nat) : Prop :=
  ∀ id', statusOf s id' = some .processing ↔ id' = id

/-- The inductive invariant of the queue manager's transition system. -/
structure Inv (s : QMState) : Prop where
  /-- Ids are assigned sequentially from 1: the `messages` dict holds, in
  insertion order, exactly the ids `1, …, next_message_id - 1`. -/
  idsEq : s.messages.map (·.message_id) = List.range' 1 (s.next_message_id - 1)
  nextPos : 1 ≤ s.next_message_id
  /-- The `asyncio.Queue` holds exactly the ids of `QUEUED` messages. -/
  queueMem : ∀ id, id ∈ s.queue ↔ statusOf s id = some .queued
  /-- The queue is strictly ascending in ids. -/
  queueSorted : s.queue.Pairwise (· < ·)
  /-- If the worker is processing `id`, then `id` is the unique
  `PROCESSING` message; otherwise there is no `PROCESSING` message, except
  that a completed shutdown may have abandoned a single one. -/
  procChar : (∀ pid, s.worker = .processing pid → procUnique s pid) ∧
    ((∀ pid, s.worker ≠ .processing pid) →
      (∀ id, statusOf s id ≠ some .processing) ∨
      (s.shLoc = .finished ∧ ∃ id, procUnique s id))
  /-- `_shutdown` is set exactly once `shutdown()` has started. -/
  flagIff : s.shutdown_flag = false ↔ s.shLoc = .notCalled
  /-- After `shutdown()` returned, the worker coroutine is gone (or is a
  freshly restarted task that has not yet passed its first loop check). -/
  finishedWorker : s.shLoc = .finished → s.worker = .idle ∨ s.worker = .loopTop
  /-- FIFO: if a larger id has left `QUEUED`, so has every smaller id. -/
  dcClosed : ∀ id1 id2 st1 st2, id1 < id2 → statusOf s id1 = some st1 →
    statusOf s id2 = some st2 → st2 ≠ .queued → st1 ≠ .queued

/-! ## The Edit Validator as a fold (spec formulation)

`editStepCount` is the spec's description of one edit step, phrased with
the occurrence count (zero ⇒ not-found, exactly one ⇒ replace, more than
one ⇒ ambiguous); `foldEditsCount` folds it left over the edit list. -/

/-- Modelled on the spec's description of a single edit application:
empty search text appends, a unique occurrence is replaced, zero or
multiple occurrences are errors. -/
def editStepCount (tf : List Char) (i : Nat) (buf : List Char) (e : Edit) :
    Except EditApplicationError (List Char) :=
  if e.search_block = [] then .ok (buf ++ e.replace_block)
  else if pyCount e.search_block buf = 0 then
    .error ⟨notFoundMsg i buf e.search_block, tf, e.search_block⟩
  else if pyCount e.search_block buf = 1 then
    .ok (replaceOne e.search_block e.replace_block buf)
  else
    .error ⟨ambiguousMsg i (pyCount e.search_block buf), tf, e.search_block⟩

/-- Left fold of `editStepCount` over the edit list: edit `k` receives the
buffer produced by edit `k - 1`. -/
def foldEditsCount (tf : List Char) : Nat → List Char → List Edit →
    Except EditApplicationError (List Char)
  | _, buf, [] => .ok buf
  | i, buf, e :: rest =>
    match editStepCount tf i buf e with
    | .error err => .error err
    | .ok buf2 => foldEditsCount tf (i + 1) buf2 rest

/-! ## Theory of the string primitives -/

/-- `List.isPrefixOf` characterised by an explicit decomposition. -/
theorem isPrefixOf_iff {p s : List Char} :
    p.isPrefixOf s = true ↔ ∃ t, s = p ++ t := by
  induction p generalizing s with
  | nil => simp [List.isPrefixOf]
  | cons a as ih =>
    cases s with
    | nil => simp [List.isPrefixOf]
    | cons b bs =>
      simp only [List.isPrefixOf, Bool.and_eq_true, beq_iff_eq, ih, List.cons_append,
        List.cons.injEq]
      constructor
      · rintro ⟨rfl, t, rfl⟩; exact ⟨t, rfl, rfl⟩
      · rintro ⟨t, rfl, rfl⟩; exact ⟨rfl, t, rfl⟩

/-- Python `in`: `pat in s` iff `s` splits as `a ++ pat ++ b`. -/
theorem occursIn_iff {p s : List Char} :
    occursIn p s = true ↔ ∃ a b, s = a ++ p ++ b := by
  induction s with
  | nil =>
    simp only [occursIn, List.isEmpty_iff]
    constructor
    · rintro rfl; exact ⟨[], [], rfl⟩
    · rintro ⟨a, b, h⟩
      rcases List.append_eq_nil.mp h.symm with ⟨h1, -⟩
      exact (List.append_eq_nil.mp h1).2
  | cons c rest ih =>
    simp only [occursIn, Bool.or_eq_true, isPrefixOf_iff, ih]
    constructor
    · rintro (⟨t, ht⟩ | ⟨a, b, hab⟩)
      · exact ⟨[], t, by simpa using ht⟩
      · exact ⟨c :: a, b, by simp [hab]⟩
    · rintro ⟨a, b, hab⟩
      cases a with
      | nil => exact .inl ⟨b, by simpa using hab⟩
      | cons a0 a2 =>
        right
        rw [List.cons_append, List.cons_append] at hab
        injection hab with h1 h2
        exact ⟨a2, b, h2⟩

/-- A pattern occurs in any string that embeds it. -/
theorem occursIn_append_middle (a p b : List Char) :
    occursIn p (a ++ p ++ b) = true :=
  occursIn_iff.mpr ⟨a, b, rfl⟩

/-- Non-overlapping occurrence count is zero exactly when the pattern does
not occur (non-empty pattern). -/
theorem pyCountNE_eq_zero_iff {p : Char} {ps s : List Char} :
    pyCountNE p ps s = 0 ↔ occursIn (p :: ps) s = false := by
  rw [pyCountNE]
  induction s with
  | nil => simp [pyCountAux, occursIn]
  | cons c rest ih =>
    by_cases hpre : (p :: ps).isPrefixOf (c :: rest) = true
    · simp only [pyCountAux, if_pos hpre, occursIn, hpre]
      simp
    · simp only [pyCountAux, if_neg hpre, occursIn,
        Bool.or_eq_false_iff, ih]
      simp [hpre]

/-- For a non-empty pattern, `pyCount` is zero iff the pattern is absent. -/
theorem pyCount_eq_zero_iff {sb s : List Char} (hsb : sb ≠ []) :
    pyCount sb s = 0 ↔ occursIn sb s = false := by
  cases sb with
  | nil => exact absurd rfl hsb
  | cons p ps => exact pyCountNE_eq_zero_iff

/-- `replaceOneNE` rewrites exactly the leftmost occurrence. -/
theorem replaceOneNE_decomp {p : Char} {ps s : List Char} (rep : List Char)
    (h : occursIn (p :: ps) s = true) :
    ∃ a b, s = a ++ (p :: ps) ++ b ∧ replaceOneNE p ps rep s = a ++ rep ++ b := by
  induction s with
  | nil => simp [occursIn] at h
  | cons c rest ih =>
    by_cases hpre : (p :: ps).isPrefixOf (c :: rest) = true
    · obtain ⟨t, ht⟩ := isPrefixOf_iff.mp hpre
      rw [List.cons_append] at ht
      injection ht with hc hrest
      refine ⟨[], t, by simp [hc, hrest], ?_⟩
      rw [replaceOneNE, if_pos hpre, hrest]
      simp [List.drop_left]
    · have h2 : occursIn (p :: ps) rest = true := by
        simp only [occursIn, Bool.or_eq_true] at h
        rcases h with h1 | h1
        · exact absurd h1 hpre
        · exact h1
      obtain ⟨a, b, hs, hr⟩ := ih h2
      refine ⟨c :: a, b, by simp [hs], ?_⟩
      rw [replaceOneNE, if_neg hpre, hr]
      simp

/-- Where an occurrence in a concatenation can live: wholly in the left
part, wholly in the right part, or spanning the boundary (a non-trivial
proper prefix of the pattern ends the left part). -/
theorem occursIn_append_cases {p a b : List Char}
    (h : occursIn p (a ++ b) = true) :
    occursIn p a = true ∨ occursIn p b = true ∨
      ∃ k, 0 < k ∧ k < p.length ∧ a.drop (a.length - k) = p.take k ∧
        (p.drop k).isPrefixOf b = true := by
  obtain ⟨x, y, hxy⟩ := occursIn_iff.mp h
  rcases le_or_lt (x.length + p.length) a.length with hle | hgt
  · -- the occurrence lies wholly inside `a`
    left
    have ha := congrArg (List.take a.length) hxy
    rw [List.take_left, List.append_assoc, List.take_append_eq_append_take,
      List.take_of_length_le (by omega), List.take_append_eq_append_take,
      List.take_of_length_le (by omega)] at ha
    exact occursIn_iff.mpr ⟨x, _, by rw [ha, List.append_assoc]⟩
  · rcases le_or_lt a.length x.length with hax | hax
    · -- the occurrence lies wholly inside `b`
      right; left
      have hb := congrArg (List.drop a.length) hxy
      rw [List.drop_left, List.append_assoc, List.drop_append_eq_append_drop,
        Nat.sub_eq_zero_of_le hax, List.drop_zero] at hb
      exact occursIn_iff.mpr ⟨x.drop a.length, y, by rw [hb, List.append_assoc]⟩
    · -- the occurrence spans the boundary
      right; right
      have hstar := congrArg (List.drop x.length) hxy
      rw [List.drop_append_eq_append_drop, Nat.sub_eq_zero_of_le (by omega),
        List.drop_zero, List.append_assoc, List.drop_left] at hstar
      -- hstar : a.drop x.length ++ b = p ++ y
      set u := a.drop x.length with hu
      have hulen : u.length = a.length - x.length := by
        rw [hu, List.length_drop]
      have htk := congrArg (List.take u.length) hstar
      rw [List.take_left, List.take_append_eq_append_take,
        Nat.sub_eq_zero_of_le (by omega), List.take_zero, List.append_nil] at htk
      have hdr := congrArg (List.drop u.length) hstar
      rw [List.drop_left, List.drop_append_eq_append_drop,
        Nat.sub_eq_zero_of_le (by omega), List.drop_zero] at hdr
      refine ⟨a.length - x.length, by omega, by omega, ?_, ?_⟩
      · have : a.length - (a.length - x.length) = x.length := by omega
        rw [this, ← hu, htk, hulen]
      · rw [hulen] at hdr
        exact isPrefixOf_iff.mpr ⟨y, hdr⟩

/-- An occurrence in the left part survives appending on the right. -/
theorem occursIn_append_left {p s : List Char} (t : List Char)
    (h : occursIn p s = true) : occursIn p (s ++ t) = true := by
  obtain ⟨a, b, rfl⟩ := occursIn_iff.mp h
  exact occursIn_iff.mpr ⟨a, b ++ t, by simp⟩

/-- An occurrence in the right part survives prepending on the left. -/
theorem occursIn_append_right {p t : List Char} (s : List Char)
    (h : occursIn p t = true) : occursIn p (s ++ t) = true := by
  obtain ⟨a, b, rfl⟩ := occursIn_iff.mp h
  exact occursIn_iff.mpr ⟨s ++ a, b, by simp⟩

/-- If a pattern occurs neither in `A`, nor in `tf`, nor spanning the
boundary, it does not occur in `A ++ tf`. -/
theorem no_occurs_append {p A tf : List Char}
    (hA : occursIn p A = false)
    (hspan : ∀ k < p.length, 0 < k → A.drop (A.length - k) ≠ p.take k)
    (htf : occursIn p tf = false) : occursIn p (A ++ tf) = false := by
  by_contra hne
  have h : occursIn p (A ++ tf) = true := by
    cases hocc : occursIn p (A ++ tf)
    · exact absurd hocc hne
    · rfl
  rcases occursIn_append_cases h with h1 | h1 | ⟨k, hk0, hkp, hdrop, -⟩
  · simp [h1] at hA
  · simp [h1] at htf
  · exact hspan k hkp hk0 hdrop

/-! ## Helper facts about the error messages -/

/-- The not-found message always contains the phrase `_should_retry`
looks for. -/
theorem notFoundPhrase_in_notFoundMsg (i : Nat) (result sb : List Char) :
    occursIn notFoundPhrase (notFoundMsg i result sb) = true := by
  have hbase : occursIn notFoundPhrase
      ("Edit ".toList ++ natRepr (i + 1) ++ ": search_block not found in document".toList) = true := by
    have hlit : ": search_block not found in document".toList =
        ": ".toList ++ notFoundPhrase ++ " in document".toList := by decide
    rw [hlit]
    exact occursIn_append_right _ (occursIn_append_left _
      (occursIn_append_right _ (occursIn_append_middle [] _ _)))
  unfold notFoundMsg
  by_cases hsim : (findSimilarLines result sb 5).isEmpty = true
  · rw [if_pos hsim]
    exact occursIn_append_left _ (occursIn_append_left _ hbase)
  · rw [if_neg hsim]
    exact occursIn_append_left _ (occursIn_append_left _ (occursIn_append_left _ hbase))

/-- The ambiguity message reports the occurrence count: its decimal
rendering occurs in the message text. -/
theorem count_in_ambiguousMsg (i n : Nat) :
    occursIn (natRepr n) (ambiguousMsg i n) = true := by
  unfold ambiguousMsg
  exact occursIn_append_left _ (occursIn_iff.mpr
    ⟨"Edit ".toList ++ natRepr (i + 1) ++ ": search_block appears multiple times (".toList,
      [], by simp⟩)

/-- The ambiguity message always contains the multiple-occurrences phrase
`_should_retry` looks for. -/
theorem multiplePhrase_in_ambiguousMsg (i n : Nat) :
    occursIn multiplePhrase (ambiguousMsg i n) = true := by
  refine occursIn_iff.mpr ⟨"Edit ".toList ++ natRepr (i + 1) ++ ": ".toList,
    " (".toList ++ natRepr n ++ " occurrences)".toList, ?_⟩
  have hlit : ": search_block appears multiple times (".toList =
      ": ".toList ++ multiplePhrase ++ " (".toList := by decide
  unfold ambiguousMsg
  rw [hlit]
  simp [List.append_assoc]

/-- The loop of `_apply_edits` coincides with the spec's left fold. -/
theorem applyEditsFrom_eq_foldEditsCount (tf : List Char) (edits : List Edit) :
    ∀ (i : Nat) (buf : List Char),
      applyEditsFrom tf i buf edits = foldEditsCount tf i buf edits := by
  induction edits with
  | nil => intro i buf; rfl
  | cons e rest ih =>
    intro i buf
    rw [applyEditsFrom, foldEditsCount, editStepCount]
    by_cases hsb : e.search_block = []
    · rw [if_pos hsb, if_pos hsb]
      exact ih (i + 1) (buf ++ e.replace_block)
    · rw [if_neg hsb, if_neg hsb]
      by_cases hocc : occursIn e.search_block buf = false
      · have hcnt : pyCount e.search_block buf = 0 :=
          (pyCount_eq_zero_iff hsb).mpr hocc
        rw [if_pos hocc, if_pos hcnt]
      · have hcnt : pyCount e.search_block buf ≠ 0 := fun h =>
          hocc ((pyCount_eq_zero_iff hsb).mp h)
        rw [if_neg hocc, if_neg hcnt]
        by_cases hone : pyCount e.search_block buf = 1
        · rw [if_pos hone, if_neg (by omega)]
          exact ih (i + 1) _
        · rw [if_neg hone, if_pos (by omega)]

/-! ## First-failure behaviour of the validation loop -/

/-- If the update at (relative) position `k` is the first whose validation
fails, the validation loop of `_commit_multi` aborts with that error and
the absolute index `idx + k`. -/
theorem validateAll_firstFail (repo : Repo) :
    ∀ (us : List DocumentUpdate) (idx : Nat)
      (vc : List (List Char × List Char)) (ftl : List (List Char))
      (k : Nat) (uk : DocumentUpdate) (e : List Char),
      us.get? k = some uk →
      validateUpdate repo uk = .error e →
      (∀ j u, j < k → us.get? j = some u → ∃ a, validateUpdate repo u = .ok a) →
      validateAll repo us idx vc ftl = .error (e, idx + k) := by
  intro us
  induction us with
  | nil => intro idx vc ftl k uk e hk; simp at hk
  | cons u rest ih =>
    intro idx vc ftl k uk e hk herr hok
    cases k with
    | zero =>
      simp only [List.get?] at hk
      cases hk
      rw [validateAll, herr]
      rfl
    | succ k' =>
      obtain ⟨a, ha⟩ := hok 0 u (Nat.succ_pos k') rfl
      have hrec := fun vc' ftl' => ih (idx + 1) vc' ftl' k' uk e hk herr
        (fun j v hj hv => hok (j + 1) v (Nat.succ_lt_succ hj) hv)
      have harith : idx + 1 + k' = idx + (k' + 1) := by omega
      cases a with
      | del p =>
        rw [validateAll, ha]
        show validateAll repo rest (idx + 1) vc (ftl ++ [p]) = _
        rw [hrec vc (ftl ++ [p]), harith]
      | write p c =>
        rw [validateAll, ha]
        show validateAll repo rest (idx + 1) (dictInsert p c vc) ftl = _
        rw [hrec (dictInsert p c vc) ftl, harith]

/-! ## Success behaviour of the validation loop

When every update validates, the loop threads the *unchanged* repository
through every `validateUpdate` call — each update is validated against the
on-disk content, never against an earlier update's validated result — and
the scratch map is built by `dictInsert`, so a later update overwrites an
earlier same-path entry. -/

/-- Looking up the key just inserted finds the new value. -/
theorem dictInsert_find_same (k v : List Char)
    (d : List (List Char × List Char)) :
    (dictInsert k v d).find? (fun pc => pc.1 = k) = some (k, v) := by
  induction d with
  | nil => simp [dictInsert, List.find?]
  | cons kv rest ih =>
    obtain ⟨k', v'⟩ := kv
    by_cases h : k' = k
    · rw [dictInsert, if_pos h]
      simp [List.find?]
    · rw [dictInsert, if_neg h]
      simp only [List.find?, decide_eq_false h]
      exact ih

/-- Inserting key `k` leaves lookups of a different key unchanged. -/
theorem dictInsert_find_other {p k : List Char} (hne : p ≠ k)
    (v : List Char) (d : List (List Char × List Char)) :
    (dictInsert k v d).find? (fun pc => pc.1 = p) =
      d.find? (fun pc => pc.1 = p) := by
  have hkp : ¬ (k = p) := fun hc => hne hc.symm
  induction d with
  | nil =>
    show List.find? (fun pc => pc.1 = p) [(k, v)] = none
    simp only [List.find?, decide_eq_false hkp]
  | cons kv rest ih =>
    obtain ⟨k', v'⟩ := kv
    by_cases h : k' = k
    · rw [dictInsert, if_pos h]
      have hk'p : ¬ (k' = p) := by rw [h]; exact hkp
      simp only [List.find?, decide_eq_false hkp, decide_eq_false hk'p]
    · rw [dictInsert, if_neg h]
      by_cases h' : k' = p
      · simp only [List.find?, decide_eq_true h']
      · simp only [List.find?, decide_eq_false h']
        exact ih

/-- A key of `dictInsert k v d` is `k` or a key of `d`. -/
theorem mem_keys_dictInsert {x k v : List Char}
    {d : List (List Char × List Char)}
    (h : x ∈ (dictInsert k v d).map (·.1)) :
    x = k ∨ x ∈ d.map (·.1) := by
  induction d with
  | nil => simp [dictInsert] at h; exact Or.inl h
  | cons kv rest ih =>
    obtain ⟨k', v'⟩ := kv
    by_cases hk : k' = k
    · rw [dictInsert, if_pos hk] at h
      rcases List.mem_cons.mp h with h | h
      · exact Or.inl h
      · exact Or.inr (List.mem_cons_of_mem _ h)
    · rw [dictInsert, if_neg hk] at h
      rcases List.mem_cons.mp h with h | h
      · exact Or.inr (h ▸ List.mem_cons_self _ _)
      · rcases ih h with h | h
        · exact Or.inl h
        · exact Or.inr (List.mem_cons_of_mem _ h)

/-- `dictInsert` preserves distinctness of the keys (Python `dict` keys
are unique). -/
theorem dictInsert_keys_nodup {k v : List Char}
    {d : List (List Char × List Char)}
    (h : (d.map (·.1)).Nodup) : ((dictInsert k v d).map (·.1)).Nodup := by
  induction d with
  | nil => simp [dictInsert]
  | cons kv rest ih =>
    obtain ⟨k', v'⟩ := kv
    simp only [List.map] at h
    obtain ⟨hnm, hnd⟩ := List.nodup_cons.mp h
    by_cases hk : k' = k
    · rw [dictInsert, if_pos hk]
      simp only [List.map]
      exact List.nodup_cons.mpr ⟨by rw [← hk]; exact hnm, hnd⟩
    · rw [dictInsert, if_neg hk]
      simp only [List.map]
      refine List.nodup_cons.mpr ⟨?_, ih hnd⟩
      intro hmem
      rcases mem_keys_dictInsert hmem with h' | h'
      · exact hk h'
      · exact hnm h'

/-- With distinct keys, membership determines the result of a key
lookup. -/
theorem find_eq_of_mem_of_keys_nodup {d : List (List Char × List Char)}
    {p c : List Char} (hnd : (d.map (·.1)).Nodup) (hm : (p, c) ∈ d) :
    d.find? (fun pc => pc.1 = p) = some (p, c) := by
  induction d with
  | nil => cases hm
  | cons kv rest ih =>
    obtain ⟨k', v'⟩ := kv
    simp only [List.map] at hnd
    obtain ⟨hnm, hnd'⟩ := List.nodup_cons.mp hnd
    rcases List.mem_cons.mp hm with heq | hm'
    · cases heq
      simp [List.find?]
    · have hk'p : ¬ (k' = p) := fun hc =>
        hnm (by rw [hc]; exact List.mem_map.mpr ⟨(p, c), hm', rfl⟩)
      simp only [List.find?, decide_eq_false hk'p]
      exact ih hnd' hm'

/-- A validation that yields a `write` action writes to the update's own
target path. -/
theorem validateUpdate_write_path {repo : Repo} {u : DocumentUpdate}
    {q c : List Char} (h : validateUpdate repo u = .ok (.write q c)) :
    q = u.target_file := by
  rw [validateUpdate] at h
  by_cases hd : u.delete_file = true
  · rw [if_pos hd] at h
    by_cases hex : repo.file_exists u.target_file = false
    · rw [if_pos hex] at h; cases h
    · rw [if_neg hex] at h
      injection h with h
      cases h
  · rw [if_neg hd] at h
    cases hgc : repo.get_file_content u.target_file with
    | some ec =>
      rw [hgc] at h
      have h2 : (match applyEdits ec u with
            | Except.error e => Except.error e.message
            | Except.ok new_content =>
              Except.ok (ValAction.write u.target_file new_content)) =
          Except.ok (ValAction.write q c) := h
      cases happ : applyEdits ec u with
      | error e => rw [happ] at h2; cases h2
      | ok nc =>
        rw [happ] at h2
        injection h2 with h2
        injection h2 with h1 hc2
        exact h1.symm
    | none =>
      rw [hgc] at h
      have h2 : (if u.create_if_missing = false then
            (Except.error (createMissingMsg u.target_file) :
              Except (List Char) ValAction)
          else if startsWith "projects/".toList u.target_file = false then
            Except.error (guardrailMsg u.target_file)
          else match applyEdits [] u with
            | Except.error e => Except.error e.message
            | Except.ok new_content =>
              Except.ok (ValAction.write u.target_file new_content)) =
          Except.ok (ValAction.write q c) := h
      by_cases hcim : u.create_if_missing = false
      · rw [if_pos hcim] at h2; cases h2
      · rw [if_neg hcim] at h2
        by_cases hsw : startsWith "projects/".toList u.target_file = false
        · rw [if_pos hsw] at h2; cases h2
        · rw [if_neg hsw] at h2
          cases happ : applyEdits [] u with
          | error e => rw [happ] at h2; cases h2
          | ok nc =>
            rw [happ] at h2
            injection h2 with h2
            injection h2 with h1 hc2
            exact h1.symm

/-- A successful non-delete validation yields a `write` action on the
update's own target path. -/
theorem validateUpdate_write_shape {repo : Repo} {u : DocumentUpdate}
    {a : ValAction} (hd : u.delete_file = false)
    (h : validateUpdate repo u = .ok a) :
    ∃ c, a = .write u.target_file c := by
  rw [validateUpdate, if_neg (by simp [hd])] at h
  cases hgc : repo.get_file_content u.target_file with
  | some ec =>
    rw [hgc] at h
    have h2 : (match applyEdits ec u with
          | Except.error e => Except.error e.message
          | Except.ok new_content =>
            Except.ok (ValAction.write u.target_file new_content)) =
        Except.ok a := h
    cases happ : applyEdits ec u with
    | error e => rw [happ] at h2; cases h2
    | ok nc => rw [happ] at h2; injection h2 with h2; exact ⟨nc, h2.symm⟩
  | none =>
    rw [hgc] at h
    have h2 : (if u.create_if_missing = false then
          (Except.error (createMissingMsg u.target_file) :
            Except (List Char) ValAction)
        else if startsWith "projects/".toList u.target_file = false then
          Except.error (guardrailMsg u.target_file)
        else match applyEdits [] u with
          | Except.error e => Except.error e.message
          | Except.ok new_content =>
            Except.ok (ValAction.write u.target_file new_content)) =
        Except.ok a := h
    by_cases hcim : u.create_if_missing = false
    · rw [if_pos hcim] at h2; cases h2
    · rw [if_neg hcim] at h2
      by_cases hsw : startsWith "projects/".toList u.target_file = false
      · rw [if_pos hsw] at h2; cases h2
      · rw [if_neg hsw] at h2
        cases happ : applyEdits [] u with
        | error e => rw [happ] at h2; cases h2
        | ok nc => rw [happ] at h2; injection h2 with h2; exact ⟨nc, h2.symm⟩

/-- For a non-delete update whose target exists on disk, a successful
validation result is exactly `_apply_edits` applied to the *on-disk*
content. -/
theorem validateUpdate_write_applyEdits {repo : Repo} {u : DocumentUpdate}
    {p orig c : List Char} (hd : u.delete_file = false)
    (hp : u.target_file = p) (horig : repo.get_file_content p = some orig)
    (h : validateUpdate repo u = .ok (.write p c)) :
    applyEdits orig u = .ok c := by
  rw [validateUpdate, if_neg (by simp [hd]), hp, horig] at h
  have h2 : (match applyEdits orig u with
        | Except.error e => Except.error e.message
        | Except.ok new_content =>
          Except.ok (ValAction.write p new_content)) =
      Except.ok (ValAction.write p c) := h
  cases happ : applyEdits orig u with
  | error e => rw [happ] at h2; cases h2
  | ok nc =>
    rw [happ] at h2
    injection h2 with h2
    injection h2 with h1 hnc
    rw [hnc]

/-- Inversion of one step of the validation loop: a successful run over
`u :: rest` validates `u` successfully and continues with the accumulators
updated by `u`'s action. -/
theorem validateAll_cons_ok {repo : Repo} {u : DocumentUpdate}
    {rest : List DocumentUpdate} {idx : Nat}
    {vc : List (List Char × List Char)} {ftl : List (List Char)}
    {out : List (List Char × List Char) × List (List Char)}
    (h : validateAll repo (u :: rest) idx vc ftl = .ok out) :
    ∃ a, validateUpdate repo u = .ok a ∧
      ((∃ q, a = .del q ∧
          validateAll repo rest (idx + 1) vc (ftl ++ [q]) = .ok out) ∨
       (∃ q c, a = .write q c ∧
          validateAll repo rest (idx + 1) (dictInsert q c vc) ftl =
            .ok out)) := by
  rw [validateAll] at h
  cases hv : validateUpdate repo u with
  | error e => rw [hv] at h; cases h
  | ok a =>
    rw [hv] at h
    cases a with
    | del q => exact ⟨.del q, rfl, Or.inl ⟨q, rfl, h⟩⟩
    | write q c => exact ⟨.write q c, rfl, Or.inr ⟨q, c, rfl, h⟩⟩

/-- If the validation loop succeeds, every update in the batch was
validated successfully — each by `validateUpdate` against the unchanged
repository, i.e. against the on-disk content. -/
theorem validateAll_ok_each (repo : Repo) :
    ∀ (us : List DocumentUpdate) (idx : Nat)
      (vc : List (List Char × List Char)) (ftl : List (List Char)) out,
      validateAll repo us idx vc ftl = .ok out →
      ∀ k uk, us.get? k = some uk → ∃ a, validateUpdate repo uk = .ok a := by
  intro us
  induction us with
  | nil => intro idx vc ftl out _ k uk hk; simp [List.get?] at hk
  | cons u rest ih =>
    intro idx vc ftl out h k uk hk
    obtain ⟨a, ha, hrec⟩ := validateAll_cons_ok h
    cases k with
    | zero =>
      simp only [List.get?] at hk
      cases hk
      exact ⟨a, ha⟩
    | succ k' =>
      simp only [List.get?] at hk
      rcases hrec with ⟨q, -, hr⟩ | ⟨q, c, -, hr⟩
      · exact ih _ _ _ _ hr k' uk hk
      · exact ih _ _ _ _ hr k' uk hk

/-- Conversely, if every update in the batch validates, the loop
succeeds. -/
theorem validateAll_ok_of_each (repo : Repo) :
    ∀ (us : List DocumentUpdate) (idx : Nat)
      (vc : List (List Char × List Char)) (ftl : List (List Char)),
      (∀ k uk, us.get? k = some uk → ∃ a, validateUpdate repo uk = .ok a) →
      ∃ out, validateAll repo us idx vc ftl = .ok out := by
  intro us
  induction us with
  | nil => intro idx vc ftl _; exact ⟨(vc, ftl), rfl⟩
  | cons u rest ih =>
    intro idx vc ftl hall
    obtain ⟨a, ha⟩ := hall 0 u rfl
    have hrest : ∀ k uk, rest.get? k = some uk →
        ∃ a, validateUpdate repo uk = .ok a :=
      fun k uk hk => hall (k + 1) uk hk
    cases a with
    | del q =>
      obtain ⟨out, hout⟩ := ih (idx + 1) vc (ftl ++ [q]) hrest
      refine ⟨out, ?_⟩
      rw [validateAll, ha]
      exact hout
    | write q c =>
      obtain ⟨out, hout⟩ := ih (idx + 1) (dictInsert q c vc) ftl hrest
      refine ⟨out, ?_⟩
      rw [validateAll, ha]
      exact hout

/-- A successful validation loop preserves distinctness of the scratch-map
keys. -/
theorem validateAll_keys_nodup (repo : Repo) :
    ∀ (us : List DocumentUpdate) (idx : Nat)
      (vc : List (List Char × List Char)) (ftl : List (List Char))
      (vc' : List (List Char × List Char)) (ftl' : List (List Char)),
      validateAll repo us idx vc ftl = .ok (vc', ftl') →
      (vc.map (·.1)).Nodup → (vc'.map (·.1)).Nodup := by
  intro us
  induction us with
  | nil =>
    intro idx vc ftl vc' ftl' h hnd
    rw [validateAll] at h
    injection h with h
    injection h with h1 h2
    rw [← h1]
    exact hnd
  | cons u rest ih =>
    intro idx vc ftl vc' ftl' h hnd
    obtain ⟨a, -, hrec⟩ := validateAll_cons_ok h
    rcases hrec with ⟨q, -, hr⟩ | ⟨q, c, -, hr⟩
    · exact ih _ _ _ _ _ hr hnd
    · exact ih _ _ _ _ _ hr (dictInsert_keys_nodup hnd)

/-- If no update of the batch targets path `p`, a successful validation
loop leaves the scratch-map entry for `p` unchanged. -/
theorem validateAll_untouched (repo : Repo) (p : List Char) :
    ∀ (us : List DocumentUpdate) (idx : Nat)
      (vc : List (List Char × List Char)) (ftl : List (List Char))
      (vc' : List (List Char × List Char)) (ftl' : List (List Char)),
      validateAll repo us idx vc ftl = .ok (vc', ftl') →
      (∀ k uk, us.get? k = some uk → uk.target_file ≠ p) →
      vc'.find? (fun pc => pc.1 = p) = vc.find? (fun pc => pc.1 = p) := by
  intro us
  induction us with
  | nil =>
    intro idx vc ftl vc' ftl' h _
    rw [validateAll] at h
    injection h with h
    injection h with h1 h2
    rw [← h1]
  | cons u rest ih =>
    intro idx vc ftl vc' ftl' h hnt
    obtain ⟨a, ha, hrec⟩ := validateAll_cons_ok h
    have hne : u.target_file ≠ p := hnt 0 u rfl
    have hrest : ∀ k uk, rest.get? k = some uk → uk.target_file ≠ p :=
      fun k uk hk => hnt (k + 1) uk hk
    rcases hrec with ⟨q, -, hr⟩ | ⟨q, c, haq, hr⟩
    · exact ih _ _ _ _ _ hr hrest
    · have hq : q = u.target_file := by
        rw [haq] at ha
        exact validateUpdate_write_path ha
      rw [ih _ _ _ _ _ hr hrest]
      exact dictInsert_find_other (fun hc => hne (by rw [← hq, ← hc])) c vc

/-- When the validation loop succeeds and `uj` (at position `j`) is the
*last* update of the batch targeting path `p`, non-delete, then `uj`
validated to a `write p c` and the final scratch-map entry for `p` is
exactly that `c` — later `dictInsert`s for `p` overwrote every earlier
same-path entry. -/
theorem validateAll_lastWrite (repo : Repo) (p : List Char) :
    ∀ (us : List DocumentUpdate) (j : Nat) (uj : DocumentUpdate)
      (idx : Nat) (vc : List (List Char × List Char))
      (ftl : List (List Char)) (vc' : List (List Char × List Char))
      (ftl' : List (List Char)),
      validateAll repo us idx vc ftl = .ok (vc', ftl') →
      us.get? j = some uj →
      uj.target_file = p → uj.delete_file = false →
      (∀ k uk, j < k → us.get? k = some uk → uk.target_file ≠ p) →
      ∃ c, validateUpdate repo uj = .ok (.write p c) ∧
        vc'.find? (fun pc => pc.1 = p) = some (p, c) := by
  intro us
  induction us with
  | nil => intro j uj idx vc ftl vc' ftl' _ hj; simp [List.get?] at hj
  | cons u rest ih =>
    intro j uj idx vc ftl vc' ftl' h hj hp hd hlast
    obtain ⟨a, ha, hrec⟩ := validateAll_cons_ok h
    cases j with
    | zero =>
      simp only [List.get?] at hj
      cases hj
      obtain ⟨c, rfl⟩ := validateUpdate_write_shape hd ha
      rcases hrec with ⟨q, haq, -⟩ | ⟨q, c2, haq, hr⟩
      · cases haq
      · injection haq with hq1 hq2
        have hrest : ∀ k uk, rest.get? k = some uk → uk.target_file ≠ p :=
          fun k uk hk => hlast (k + 1) uk (Nat.succ_pos k) hk
        refine ⟨c, by rw [hp] at ha; exact ha, ?_⟩
        rw [validateAll_untouched repo p rest _ _ _ _ _ hr hrest,
          ← hq1, ← hq2, hp, dictInsert_find_same]
    | succ j' =>
      simp only [List.get?] at hj
      have hlast' : ∀ k uk, j' < k → rest.get? k = some uk →
          uk.target_file ≠ p :=
        fun k uk hk hku => hlast (k + 1) uk (Nat.succ_lt_succ hk) hku
      rcases hrec with ⟨q, -, hr⟩ | ⟨q, c, -, hr⟩
      · exact ih j' uj _ _ _ _ _ hr hj hp hd hlast'
      · exact ih j' uj _ _ _ _ _ hr hj hp hd hlast'

/-- Inversion of a successful `_commit_multi`: the validation loop
succeeded and the emitted operations are the deletions, the writes of the
scratch map in order, and the single commit call. -/
theorem commitMulti_ok_inversion {updates : List DocumentUpdate}
    {commit_message : List Char} {repo : Repo} {ops : List RepoOp}
    (h : commitMulti updates commit_message repo = (⟨true, none, none⟩, ops)) :
    ∃ vc' ftl', validateAll repo updates 0 [] [] = .ok (vc', ftl') ∧
      ops = ftl'.map RepoOp.deleteFile ++
        vc'.map (fun pc => RepoOp.writeFile pc.1 pc.2) ++
        [RepoOp.commitMultiple (ftl' ++ vc'.map (·.1)) commit_message
          ftl'] := by
  rw [commitMulti] at h
  cases hva : validateAll repo updates 0 [] [] with
  | error ei =>
    obtain ⟨e, i⟩ := ei
    rw [hva] at h
    injection h with h1 h2
    injection h1 with hs he hf
    cases hs
  | ok out =>
    obtain ⟨vc', ftl'⟩ := out
    rw [hva] at h
    injection h with h1 h2
    exact ⟨vc', ftl', rfl, h2.symm⟩

/-! ## Helper facts about `_should_retry` and the retry loop -/

/-- `_should_retry` answers `"retry"` only on an uncommitted state whose
non-empty error text contains one of the two phrases, with
`retry_count < MAX_RETRIES`. -/
theorem should_retry_eq_retry_imp (s : RetryState)
    (h : should_retry s = "retry") :
    s.committed = false ∧ s.retry_count < MAX_RETRIES ∧
    ∃ e, s.error = some e ∧ e ≠ [] ∧
      (occursIn notFoundPhrase e = true ∨ occursIn multiplePhrase e = true) := by
  unfold should_retry at h
  split at h
  · exact absurd h (by decide)
  · rename_i hc
    split at h
    · exact absurd h (by decide)
    · rename_i e herr
      split at h
      · exact absurd h (by decide)
      · rename_i he
        split at h
        · rename_i hph
          split at h
          · rename_i hrc
            exact ⟨by simpa using hc, hrc, e, herr, he, by simpa using hph⟩
          · exact absurd h (by decide)
        · exact absurd h (by decide)

/-- `_should_retry` answers `"retry"` on an uncommitted state with a
retryable error text and remaining retry budget. -/
theorem should_retry_retry_of_phrase {e : List Char} {rc : Nat}
    (he : e ≠ [])
    (hph : occursIn notFoundPhrase e = true ∨ occursIn multiplePhrase e = true)
    (hrc : rc < MAX_RETRIES) :
    should_retry ⟨false, some e, rc⟩ = "retry" := by
  unfold should_retry
  rw [if_neg (by simp)]
  show (if e = [] then "end"
    else if (occursIn notFoundPhrase e || occursIn multiplePhrase e) = true then
      if rc < MAX_RETRIES then "retry" else "end"
    else "end") = "retry"
  rw [if_neg he, if_pos (by simpa using hph), if_pos hrc]

/-- `_should_retry` answers `"end"` once `retry_count` reached
`MAX_RETRIES`, whatever the error text. -/
theorem should_retry_end_of_exhausted {e : List Char} {rc : Nat} {c : Bool}
    (hrc : MAX_RETRIES ≤ rc) :
    should_retry ⟨c, some e, rc⟩ = "end" := by
  unfold should_retry
  by_cases hc : c = true
  · rw [if_pos hc]
  · rw [if_neg hc]
    show (if e = [] then "end"
      else if (occursIn notFoundPhrase e || occursIn multiplePhrase e) = true then
        if rc < MAX_RETRIES then "retry" else "end"
      else "end") = "end"
    by_cases he : e = []
    · rw [if_pos he]
    · rw [if_neg he]
      by_cases hph : (occursIn notFoundPhrase e || occursIn multiplePhrase e) = true
      · rw [if_pos hph, if_neg (by omega)]
      · rw [if_neg hph]

/-- `_should_retry` answers `"end"` on an error text free of both
retryable phrases. -/
theorem should_retry_end_of_no_phrase {e : List Char} (rc : Nat)
    (h1 : occursIn notFoundPhrase e = false)
    (h2 : occursIn multiplePhrase e = false) :
    should_retry ⟨false, some e, rc⟩ = "end" := by
  unfold should_retry
  rw [if_neg (by simp)]
  show (if e = [] then "end"
    else if (occursIn notFoundPhrase e || occursIn multiplePhrase e) = true then
      if rc < MAX_RETRIES then "retry" else "end"
    else "end") = "end"
  by_cases he : e = []
  · rw [if_pos he]
  · rw [if_neg he, if_neg (by rw [h1, h2]; decide)]

/-- A committer outcome does not touch the retry counter. -/
theorem applyOutcome_retry_count (s : RetryState) (o : Outcome) :
    (applyOutcome s o).retry_count = s.retry_count := by
  cases o <;> rfl

/-- One round of the committer retry loop when the decision is to retry. -/
theorem runTail_retry (outcomes : Nat → Outcome) (k : Nat) (s : RetryState)
    (f : Nat) (h : should_retry (applyOutcome s (outcomes k)) = "retry") :
    runTail outcomes k s (f + 1) =
      runTail outcomes (k + 1) (retry_prep (applyOutcome s (outcomes k))) f := by
  simp only [runTail]
  rw [if_pos h]

/-- One round of the committer retry loop when the decision is to stop. -/
theorem runTail_stop (outcomes : Nat → Outcome) (k : Nat) (s : RetryState)
    (f : Nat) (h : ¬ should_retry (applyOutcome s (outcomes k)) = "retry") :
    runTail outcomes k s (f + 1) = some (applyOutcome s (outcomes k)) := by
  simp only [runTail]
  rw [if_neg h]

/-! ## Helper facts for the guardrail claim -/

/-- The guardrail message contains no retryable phrase unless the target
path itself does. -/
theorem guardrailMsg_no_phrase {tf : List Char}
    (h1 : occursIn notFoundPhrase tf = false)
    (h2 : occursIn multiplePhrase tf = false) :
    occursIn notFoundPhrase (guardrailMsg tf) = false ∧
    occursIn multiplePhrase (guardrailMsg tf) = false := by
  rw [guardrailMsg]
  exact ⟨no_occurs_append (by decide) (by decide) h1,
    no_occurs_append (by decide) (by decide) h2⟩

/-! ## Basic facts about message lookup and status update -/

theorem statusOfL_append_of_some {msgs : List QueuedMessage} {id : Nat}
    {st : MessageStatus} (l2 : List QueuedMessage)
    (h : statusOfL msgs id = some st) :
    statusOfL (msgs ++ l2) id = some st := by
  unfold statusOfL at *
  rw [List.find?_append]
  cases hf : msgs.find? (fun m => m.message_id = id) with
  | none => rw [hf] at h; exact absurd h (by simp)
  | some m => rw [hf] at h; simp [Option.or, hf, h]
  -- the `simp` closes `((some m).or _).map _ = some st` from `some m.status = some st`

theorem statusOfL_append_of_none {msgs : List QueuedMessage} {id : Nat}
    (l2 : List QueuedMessage) (h : statusOfL msgs id = none) :
    statusOfL (msgs ++ l2) id = statusOfL l2 id := by
  unfold statusOfL at *
  rw [List.find?_append]
  cases hf : msgs.find? (fun m => m.message_id = id) with
  | none => simp [Option.or]
  | some m => rw [hf] at h; exact absurd h (by simp)

theorem statusOfL_eq_none_of_not_mem {msgs : List QueuedMessage} {id : Nat}
    (h : id ∉ msgs.map (·.message_id)) : statusOfL msgs id = none := by
  unfold statusOfL
  rw [List.find?_eq_none.mpr]
  · rfl
  · intro m hm hid
    exact h (List.mem_map.mpr ⟨m, hm, by simpa using hid⟩)

theorem mem_ids_of_statusOfL_some {msgs : List QueuedMessage} {id : Nat}
    {st : MessageStatus} (h : statusOfL msgs id = some st) :
    id ∈ msgs.map (·.message_id) := by
  by_contra hmem
  rw [statusOfL_eq_none_of_not_mem hmem] at h
  exact absurd h (by simp)

theorem setStatus_map_id (id : Nat) (st : MessageStatus)
    (err res : Option (List Char)) (msgs : List QueuedMessage) :
    (setStatus id st err res msgs).map (·.message_id) =
      msgs.map (·.message_id) := by
  unfold setStatus
  rw [List.map_map]
  apply List.map_congr_left
  intro m _
  by_cases h : m.message_id = id <;> simp [h]

theorem statusOfL_setStatus_same (id : Nat) (st : MessageStatus)
    (err res : Option (List Char)) (msgs : List QueuedMessage) :
    statusOfL (setStatus id st err res msgs) id =
      (statusOfL msgs id).map (fun _ => st) := by
  unfold statusOfL setStatus
  induction msgs with
  | nil => rfl
  | cons m rest ih =>
    by_cases h : m.message_id = id
    · simp [List.find?, h]
    · simp only [List.map, List.find?, if_neg h, decide_eq_false h]
      exact ih

theorem statusOfL_setStatus_other {id id' : Nat} (hne : id' ≠ id)
    (st : MessageStatus) (err res : Option (List Char))
    (msgs : List QueuedMessage) :
    statusOfL (setStatus id st err res msgs) id' = statusOfL msgs id' := by
  unfold statusOfL setStatus
  induction msgs with
  | nil => rfl
  | cons m rest ih =>
    by_cases h : m.message_id = id
    · have hm : ¬ m.message_id = id' := by rw [h]; exact fun hc => hne hc.symm
      simp only [List.map, List.find?, if_pos h, decide_eq_false hm]
      exact ih
    · by_cases h' : m.message_id = id'
      · simp only [List.map, List.find?, if_neg h, decide_eq_true h']
      · simp only [List.map, List.find?, if_neg h, decide_eq_false h']
        exact ih

theorem statusOfL_of_mem {msgs : List QueuedMessage} {m : QueuedMessage}
    (hnd : (msgs.map (·.message_id)).Nodup) (hm : m ∈ msgs) :
    statusOfL msgs m.message_id = some m.status := by
  unfold statusOfL
  induction msgs with
  | nil => cases hm
  | cons m0 rest ih =>
    obtain ⟨hnm, hnd'⟩ := List.nodup_cons.mp (by simpa only [List.map] using hnd)
    rcases List.mem_cons.mp hm with rfl | hm'
    · simp [List.find?]
    · have hne : ¬ m0.message_id = m.message_id := by
        intro hc
        exact hnm (hc ▸ List.mem_map.mpr ⟨m, hm', rfl⟩)
      simp only [List.find?, decide_eq_false hne]
      exact ih hnd' hm'

theorem eq_of_mem_of_id_eq {msgs : List QueuedMessage}
    {m1 m2 : QueuedMessage} (hnd : (msgs.map (·.message_id)).Nodup)
    (h1 : m1 ∈ msgs) (h2 : m2 ∈ msgs)
    (hid : m1.message_id = m2.message_id) : m1 = m2 := by
  induction msgs with
  | nil => cases h1
  | cons m0 rest ih =>
    obtain ⟨hnm, hnd'⟩ := List.nodup_cons.mp (by simpa only [List.map] using hnd)
    rcases List.mem_cons.mp h1 with rfl | h1'
    · rcases List.mem_cons.mp h2 with rfl | h2'
      · rfl
      · exact absurd (hid ▸ List.mem_map.mpr ⟨m2, h2', rfl⟩) hnm
    · rcases List.mem_cons.mp h2 with rfl | h2'
      · have hmem : m1.message_id ∈ rest.map (·.message_id) :=
          List.mem_map.mpr ⟨m1, h1', rfl⟩
        exact absurd (hid ▸ hmem) hnm
      · exact ih hnd' h1' h2'

/-! ## The queue-manager invariant: initial state and preservation -/

theorem inv_nodup {s : QMState} (hi : Inv s) :
    (s.messages.map (·.message_id)).Nodup := by
  rw [hi.idsEq]
  exact List.nodup_range' 1 _

theorem statusOf_lt_next {s : QMState} (hi : Inv s) {id : Nat}
    {st : MessageStatus} (h : statusOf s id = some st) :
    1 ≤ id ∧ id < s.next_message_id := by
  have hmem : id ∈ s.messages.map (·.message_id) := mem_ids_of_statusOfL_some h
  rw [hi.idsEq] at hmem
  have := List.mem_range'_1.mp hmem
  have hn := hi.nextPos
  omega

theorem statusOf_next_none {s : QMState} (hi : Inv s) :
    statusOf s s.next_message_id = none := by
  apply statusOfL_eq_none_of_not_mem
  rw [hi.idsEq]
  intro hmem
  have := List.mem_range'_1.mp hmem
  omega

theorem procUnique_statusOf {s : QMState} {id : Nat} (h : procUnique s id) :
    statusOf s id = some .processing := by
  rcases hst : statusOf s id with - | st
  · exact absurd ((h id).mpr rfl) (by rw [hst]; simp)
  · rcases st with - | - | - | -
    · exact absurd ((h id).mpr rfl) (by rw [hst]; simp)
    · rfl
    · exact absurd ((h id).mpr rfl) (by rw [hst]; simp)
    · exact absurd ((h id).mpr rfl) (by rw [hst]; simp)

theorem inv_flag_true {s : QMState} (hi : Inv s) (h : s.shLoc ≠ .notCalled) :
    s.shutdown_flag = true := by
  cases hf : s.shutdown_flag
  · exact absurd (hi.flagIff.mp hf) h
  · rfl
theorem inv_init : Inv initQM := by
  refine ⟨rfl, le_refl 1, ?_, ?_, ⟨?_, ?_⟩, ?_, ?_, ?_⟩
  · intro id
    simp [initQM, statusOf, statusOfL, List.find?]
  · simp [initQM]
  · intro pid h
    simp [initQM] at h
  · intro _
    exact Or.inl (fun id => by simp [initQM, statusOf, statusOfL, List.find?])
  · simp [initQM]
  · intro h
    simp [initQM] at h
  · intro id1 id2 st1 st2 _ h1
    simp [initQM, statusOf, statusOfL, List.find?] at h1

theorem inv_step_enqueue {s s' : QMState} (hi : Inv s) {c : List Char}
    (hs : step s (.enqueue c) = some s') : Inv s' := by
  simp only [step] at hs
  injection hs with h
  have hmsg : s'.messages = s.messages ++
      [{ message_id := s.next_message_id, content := c, status := .queued }] := by
    rw [← h]
  have hq : s'.queue = s.queue ++ [s.next_message_id] := by rw [← h]
  have hnext : s'.next_message_id = s.next_message_id + 1 := by rw [← h]
  have hwrk : s'.worker =
      (if s.worker = .idle then WorkerLoc.loopTop else s.worker) := by rw [← h]
  have hflag : s'.shutdown_flag = s.shutdown_flag := by rw [← h]
  have hsh : s'.shLoc = s.shLoc := by rw [← h]
  have hnewnone : statusOf s s.next_message_id = none := statusOf_next_none hi
  have hnew : statusOf s' s.next_message_id = some .queued := by
    show statusOfL s'.messages _ = _
    rw [hmsg, statusOfL_append_of_none _ hnewnone]
    simp [statusOfL, List.find?]
  have hold : ∀ id, id ≠ s.next_message_id →
      statusOf s' id = statusOf s id := by
    intro id hid
    show statusOfL s'.messages _ = _
    rw [hmsg]
    cases hso : statusOf s id with
    | some st => exact statusOfL_append_of_some _ hso
    | none =>
      rw [statusOfL_append_of_none _ hso]
      simp only [statusOfL, List.find?]
      rw [decide_eq_false (fun hc => hid hc.symm)]
      rfl
  refine ⟨?_, ?_, ?_, ?_, ⟨?_, ?_⟩, ?_, ?_, ?_⟩
  · rw [hmsg, hnext, List.map_append, hi.idsEq]
    have h1 : s.next_message_id + 1 - 1 = (s.next_message_id - 1) + 1 := by
      have := hi.nextPos; omega
    rw [h1, List.range'_concat]
    have h2 : 1 + 1 * (s.next_message_id - 1) = s.next_message_id := by
      have := hi.nextPos; omega
    rw [h2]
    rfl
  · rw [hnext]; omega
  · intro id
    rw [hq]
    by_cases hid : id = s.next_message_id
    · subst hid
      exact ⟨fun _ => hnew, fun _ => List.mem_append_right _ (by simp)⟩
    · rw [hold id hid]
      constructor
      · intro hmem
        have hmem' : id ∈ s.queue := by
          rcases List.mem_append.mp hmem with hmm | hmm
          · exact hmm
          · simp at hmm; exact absurd hmm hid
        exact (hi.queueMem id).mp hmem'
      · intro hst
        exact List.mem_append_left _ ((hi.queueMem id).mpr hst)
  · rw [hq, List.pairwise_append]
    refine ⟨hi.queueSorted, List.pairwise_singleton _ _, ?_⟩
    intro a ha b hb
    simp only [List.mem_singleton] at hb
    subst hb
    exact (statusOf_lt_next hi ((hi.queueMem a).mp ha)).2
  · intro pid hw'
    rw [hwrk] at hw'
    have hw : s.worker = .processing pid := by
      by_cases hidle : s.worker = .idle
      · rw [if_pos hidle] at hw'; cases hw'
      · rw [if_neg hidle] at hw'; exact hw'
    have huniq := hi.procChar.1 pid hw
    intro id
    by_cases hid : id = s.next_message_id
    · subst hid
      rw [hnew]
      constructor
      · intro hc; exact absurd hc (by simp)
      · intro hc
        rw [hc] at hnewnone
        rw [procUnique_statusOf huniq] at hnewnone
        cases hnewnone
    · rw [hold id hid]
      exact huniq id
  · intro hnp
    have hnp' : ∀ pid, s.worker ≠ .processing pid := by
      intro pid hc
      refine hnp pid ?_
      rw [hwrk, if_neg ?_]
      · exact hc
      · rw [hc]; simp
    rcases hi.procChar.2 hnp' with hnone | ⟨hfin, id0, huniq⟩
    · left
      intro id hc
      by_cases hid : id = s.next_message_id
      · subst hid
        rw [hnew] at hc
        exact absurd hc (by simp)
      · rw [hold id hid] at hc
        exact hnone id hc
    · right
      refine ⟨by rw [hsh]; exact hfin, id0, fun id => ?_⟩
      by_cases hid : id = s.next_message_id
      · subst hid
        rw [hnew]
        constructor
        · intro hc; exact absurd hc (by simp)
        · intro hc
          rw [hc] at hnewnone
          rw [procUnique_statusOf huniq] at hnewnone
          cases hnewnone
      · rw [hold id hid]
        exact huniq id
  · rw [hflag, hsh]
    exact hi.flagIff
  · rw [hsh, hwrk]
    intro hfin
    rcases hi.finishedWorker hfin with hw | hw <;> rw [hw]
    · rw [if_pos rfl]; right; rfl
    · rw [if_neg (by simp)]; right; rfl
  · intro id1 id2 st1 st2 hlt h1 h2 hst2
    by_cases hid2 : id2 = s.next_message_id
    · subst hid2
      rw [hnew] at h2
      injection h2 with h2
      exact absurd h2.symm hst2
    · rw [hold id2 hid2] at h2
      by_cases hid1 : id1 = s.next_message_id
      · subst hid1
        have := statusOf_lt_next hi h2
        omega
      · rw [hold id1 hid1] at h1
        exact hi.dcClosed id1 id2 st1 st2 hlt h1 h2 hst2

theorem inv_step_workerLoopCheck {s s' : QMState} (hi : Inv s)
    (hs : step s .workerLoopCheck = some s') : Inv s' := by
  simp only [step] at hs
  cases hw : s.worker with
  | idle => rw [hw] at hs; cases hs
  | gettingMsg => rw [hw] at hs; cases hs
  | processing pid => rw [hw] at hs; cases hs
  | loopTop =>
    rw [hw] at hs
    injection hs with h
    have hmsg : s'.messages = s.messages := by rw [← h]
    have hq : s'.queue = s.queue := by rw [← h]
    have hnext : s'.next_message_id = s.next_message_id := by rw [← h]
    have hwrk : s'.worker =
        (if s.shutdown_flag = true then WorkerLoc.idle else .gettingMsg) := by
      rw [← h]
    have hflag : s'.shutdown_flag = s.shutdown_flag := by rw [← h]
    have hsh : s'.shLoc = s.shLoc := by rw [← h]
    have hstat : ∀ id, statusOf s' id = statusOf s id := by
      intro id
      show statusOfL s'.messages id = _
      rw [hmsg]
      rfl
    refine ⟨?_, ?_, ?_, ?_, ⟨?_, ?_⟩, ?_, ?_, ?_⟩
    · rw [hmsg, hnext]; exact hi.idsEq
    · rw [hnext]; exact hi.nextPos
    · intro id; rw [hq, hstat id]; exact hi.queueMem id
    · rw [hq]; exact hi.queueSorted
    · intro pid hw'
      rw [hwrk] at hw'
      by_cases hf : s.shutdown_flag = true
      · rw [if_pos hf] at hw'; cases hw'
      · rw [if_neg hf] at hw'; cases hw'
    · intro _
      have hnp : ∀ pid, s.worker ≠ .processing pid := by
        intro pid hc; rw [hw] at hc; cases hc
      rcases hi.procChar.2 hnp with hnone | ⟨hfin, id0, huniq⟩
      · left; intro id hc; rw [hstat id] at hc; exact hnone id hc
      · right
        refine ⟨by rw [hsh]; exact hfin, id0, fun id => ?_⟩
        rw [hstat id]; exact huniq id
    · rw [hflag, hsh]; exact hi.flagIff
    · rw [hsh, hwrk]
      intro hfin
      have hf : s.shutdown_flag = true := inv_flag_true hi (by rw [hfin]; simp)
      rw [if_pos hf]; left; rfl
    · intro id1 id2 st1 st2 hlt h1 h2
      rw [hstat id1] at h1
      rw [hstat id2] at h2
      exact hi.dcClosed id1 id2 st1 st2 hlt h1 h2

theorem inv_step_workerGet {s s' : QMState} (hi : Inv s)
    (hs : step s .workerGet = some s') : Inv s' := by
  simp only [step] at hs
  cases hw : s.worker with
  | idle => rw [hw] at hs; cases hs
  | loopTop => rw [hw] at hs; cases hs
  | processing pid => rw [hw] at hs; cases hs
  | gettingMsg =>
    rw [hw] at hs
    cases hqe : s.queue with
    | nil => rw [hqe] at hs; cases hs
    | cons hd rest =>
      rw [hqe] at hs
      injection hs with h
      have hmsg : s'.messages = setStatus hd .processing none none s.messages := by
        rw [← h]
      have hq : s'.queue = rest := by rw [← h]
      have hnext : s'.next_message_id = s.next_message_id := by rw [← h]
      have hwrk : s'.worker = .processing hd := by rw [← h]
      have hflag : s'.shutdown_flag = s.shutdown_flag := by rw [← h]
      have hsh : s'.shLoc = s.shLoc := by rw [← h]
      have hhdq : statusOf s hd = some .queued :=
        (hi.queueMem hd).mp (hqe ▸ List.mem_cons_self hd rest)
      have hsame : statusOf s' hd = some .processing := by
        show statusOfL s'.messages hd = _
        rw [hmsg, statusOfL_setStatus_same,
          show statusOfL s.messages hd = some .queued from hhdq]
        rfl
      have hother : ∀ id, id ≠ hd → statusOf s' id = statusOf s id := by
        intro id hid
        show statusOfL s'.messages id = _
        rw [hmsg, statusOfL_setStatus_other hid]
        rfl
      have hsorted := hi.queueSorted
      rw [hqe] at hsorted
      have hhd_lt : ∀ x ∈ rest, hd < x := (List.pairwise_cons.mp hsorted).1
      have hnp : ∀ pid, s.worker ≠ .processing pid := by
        intro pid hc; rw [hw] at hc; cases hc
      have hnone : ∀ id, statusOf s id ≠ some .processing := by
        rcases hi.procChar.2 hnp with hnone | ⟨hfin, -, -⟩
        · exact hnone
        · rcases hi.finishedWorker hfin with hww | hww <;> cases hww.symm.trans hw
      refine ⟨?_, ?_, ?_, ?_, ⟨?_, ?_⟩, ?_, ?_, ?_⟩
      · rw [hmsg, hnext, setStatus_map_id]; exact hi.idsEq
      · rw [hnext]; exact hi.nextPos
      · intro id
        rw [hq]
        by_cases hid : id = hd
        · subst hid
          rw [hsame]
          constructor
          · intro hmem
            have := hhd_lt _ hmem
            omega
          · intro hc; cases hc
        · rw [hother id hid]
          constructor
          · intro hmem
            exact (hi.queueMem id).mp (by rw [hqe]; exact List.mem_cons_of_mem _ hmem)
          · intro hst
            have hmem := (hi.queueMem id).mpr hst
            rw [hqe] at hmem
            rcases List.mem_cons.mp hmem with hh | hh
            · exact absurd hh hid
            · exact hh
      · rw [hq]; exact (List.pairwise_cons.mp hsorted).2
      · intro pid hw'
        rw [hwrk] at hw'
        injection hw' with hpid
        subst hpid
        intro id
        by_cases hid : id = hd
        · subst hid
          rw [hsame]
          exact ⟨fun _ => rfl, fun _ => rfl⟩
        · rw [hother id hid]
          exact ⟨fun hc => absurd hc (hnone id), fun hc => absurd hc hid⟩
      · intro hnp'
        exact absurd hwrk (hnp' hd)
      · rw [hflag, hsh]; exact hi.flagIff
      · rw [hsh]
        intro hfin
        rcases hi.finishedWorker hfin with hww | hww <;> cases hww.symm.trans hw
      · intro id1 id2 st1 st2 hlt h1 h2 hst2
        by_cases hid2 : id2 = hd
        · subst hid2
          rw [hother id1 (by omega)] at h1
          intro hq1
          subst hq1
          have hmem := (hi.queueMem id1).mpr h1
          rw [hqe] at hmem
          rcases List.mem_cons.mp hmem with hh | hh
          · omega
          · have := hhd_lt _ hh; omega
        · rw [hother id2 hid2] at h2
          by_cases hid1 : id1 = hd
          · subst hid1
            rw [hsame] at h1
            injection h1 with h1
            rw [← h1]
            simp
          · rw [hother id1 hid1] at h1
            exact hi.dcClosed id1 id2 st1 st2 hlt h1 h2 hst2

theorem inv_step_workerGetTimeout {s s' : QMState} (hi : Inv s)
    (hs : step s .workerGetTimeout = some s') : Inv s' := by
  simp only [step] at hs
  cases hw : s.worker with
  | idle => rw [hw] at hs; cases hs
  | loopTop => rw [hw] at hs; cases hs
  | processing pid => rw [hw] at hs; cases hs
  | gettingMsg =>
    rw [hw] at hs
    cases hqe : s.queue with
    | cons hd rest => rw [hqe] at hs; cases hs
    | nil =>
      rw [hqe] at hs
      injection hs with h
      have hmsg : s'.messages = s.messages := by rw [← h]
      have hq : s'.queue = s.queue := by rw [← h, hqe]
      have hnext : s'.next_message_id = s.next_message_id := by rw [← h]
      have hwrk : s'.worker = .loopTop := by rw [← h]
      have hflag : s'.shutdown_flag = s.shutdown_flag := by rw [← h]
      have hsh : s'.shLoc = s.shLoc := by rw [← h]
      have hstat : ∀ id, statusOf s' id = statusOf s id := by
        intro id
        show statusOfL s'.messages id = _
        rw [hmsg]
        rfl
      have hnp : ∀ pid, s.worker ≠ .processing pid := by
        intro pid hc; rw [hw] at hc; cases hc
      refine ⟨?_, ?_, ?_, ?_, ⟨?_, ?_⟩, ?_, ?_, ?_⟩
      · rw [hmsg, hnext]; exact hi.idsEq
      · rw [hnext]; exact hi.nextPos
      · intro id; rw [hq, hstat id]; exact hi.queueMem id
      · rw [hq]; exact hi.queueSorted
      · intro pid hw'
        rw [hwrk] at hw'
        cases hw'
      · intro _
        rcases hi.procChar.2 hnp with hnone | ⟨hfin, id0, huniq⟩
        · left; intro id hc; rw [hstat id] at hc; exact hnone id hc
        · right
          refine ⟨by rw [hsh]; exact hfin, id0, fun id => ?_⟩
          rw [hstat id]; exact huniq id
      · rw [hflag, hsh]; exact hi.flagIff
      · rw [hsh, hwrk]
        intro _
        right; rfl
      · intro id1 id2 st1 st2 hlt h1 h2
        rw [hstat id1] at h1
        rw [hstat id2] at h2
        exact hi.dcClosed id1 id2 st1 st2 hlt h1 h2

/-- Common core for the two `finally`-terminated branches of the worker's
inner `try`: the message being processed moves to a terminal status. -/
theorem inv_step_finish {s s' : QMState} (hi : Inv s) {pid : Nat}
    (hw : s.worker = .processing pid) (term : MessageStatus)
    (err res : Option (List Char))
    (hterm : term = .completed ∨ term = .failed)
    (hmsg : s'.messages = setStatus pid term err res s.messages)
    (hq : s'.queue = s.queue)
    (hnext : s'.next_message_id = s.next_message_id)
    (hwrk : s'.worker = .loopTop)
    (hflag : s'.shutdown_flag = s.shutdown_flag)
    (hsh : s'.shLoc = s.shLoc) : Inv s' := by
  have huniq := hi.procChar.1 pid hw
  have hpidst : statusOf s pid = some .processing := procUnique_statusOf huniq
  have htq : term ≠ .queued := by rcases hterm with rfl | rfl <;> simp
  have htp : term ≠ .processing := by rcases hterm with rfl | rfl <;> simp
  have hsame : statusOf s' pid = some term := by
    show statusOfL s'.messages pid = _
    rw [hmsg, statusOfL_setStatus_same,
      show statusOfL s.messages pid = some .processing from hpidst]
    rfl
  have hother : ∀ id, id ≠ pid → statusOf s' id = statusOf s id := by
    intro id hid
    show statusOfL s'.messages id = _
    rw [hmsg, statusOfL_setStatus_other hid]
    rfl
  have hpid_notq : pid ∉ s.queue := by
    intro hmem
    have := (hi.queueMem pid).mp hmem
    rw [hpidst] at this
    cases this
  refine ⟨?_, ?_, ?_, ?_, ⟨?_, ?_⟩, ?_, ?_, ?_⟩
  · rw [hmsg, hnext, setStatus_map_id]; exact hi.idsEq
  · rw [hnext]; exact hi.nextPos
  · intro id
    rw [hq]
    by_cases hid : id = pid
    · subst hid
      rw [hsame]
      exact ⟨fun hmem => absurd hmem hpid_notq,
        fun hc => absurd ((Option.some.injEq _ _).mp hc) htq⟩
    · rw [hother id hid]
      exact hi.queueMem id
  · rw [hq]; exact hi.queueSorted
  · intro pid' hw'
    rw [hwrk] at hw'
    cases hw'
  · intro _
    left
    intro id hc
    by_cases hid : id = pid
    · subst hid
      rw [hsame] at hc
      exact htp ((Option.some.injEq _ _).mp hc)
    · rw [hother id hid] at hc
      exact hid ((huniq id).mp hc)
  · rw [hflag, hsh]; exact hi.flagIff
  · rw [hwrk]
    intro _
    right; rfl
  · intro id1 id2 st1 st2 hlt h1 h2 hst2
    by_cases hid2 : id2 = pid
    · subst hid2
      rw [hother id1 (by omega)] at h1
      exact hi.dcClosed id1 id2 st1 .processing hlt h1 hpidst (by simp)
    · rw [hother id2 hid2] at h2
      by_cases hid1 : id1 = pid
      · subst hid1
        rw [hsame] at h1
        injection h1 with h1
        rw [← h1]
        exact htq
      · rw [hother id1 hid1] at h1
        exact hi.dcClosed id1 id2 st1 st2 hlt h1 h2 hst2

theorem inv_step_finishOk {s s' : QMState} (hi : Inv s) {r : List Char}
    (hs : step s (.finishOk r) = some s') : Inv s' := by
  simp only [step] at hs
  cases hw : s.worker with
  | idle => rw [hw] at hs; cases hs
  | loopTop => rw [hw] at hs; cases hs
  | gettingMsg => rw [hw] at hs; cases hs
  | processing pid =>
    rw [hw] at hs
    injection hs with h
    exact inv_step_finish hi hw .completed none (some r) (Or.inl rfl)
      (by rw [← h]) (by rw [← h]) (by rw [← h]) (by rw [← h]) (by rw [← h])
      (by rw [← h])

theorem inv_step_finishFail {s s' : QMState} (hi : Inv s) {err : List Char}
    (hs : step s (.finishFail err) = some s') : Inv s' := by
  simp only [step] at hs
  cases hw : s.worker with
  | idle => rw [hw] at hs; cases hs
  | loopTop => rw [hw] at hs; cases hs
  | gettingMsg => rw [hw] at hs; cases hs
  | processing pid =>
    rw [hw] at hs
    injection hs with h
    exact inv_step_finish hi hw .failed (some err) none (Or.inr rfl)
      (by rw [← h]) (by rw [← h]) (by rw [← h]) (by rw [← h]) (by rw [← h])
      (by rw [← h])

/-- Common core for the purely control-flow shutdown transitions
(`shutdown()` entry and the two `queue.join()` exits): nothing but
`shutdown_flag` and `shLoc` changes, the flag is true afterwards, and
neither the old nor the new location is `finished`. -/
theorem inv_step_shutdownCtl {s s' : QMState} (hi : Inv s)
    (hmsg : s'.messages = s.messages)
    (hq : s'.queue = s.queue)
    (hnext : s'.next_message_id = s.next_message_id)
    (hwrk : s'.worker = s.worker)
    (hflag : s'.shutdown_flag = true)
    (hshne : s'.shLoc ≠ .notCalled)
    (hnotfin : s.shLoc ≠ .finished)
    (hnotfin' : s'.shLoc ≠ .finished) : Inv s' := by
  have hstat : ∀ id, statusOf s' id = statusOf s id := by
    intro id
    show statusOfL s'.messages id = _
    rw [hmsg]
    rfl
  refine ⟨?_, ?_, ?_, ?_, ⟨?_, ?_⟩, ?_, ?_, ?_⟩
  · rw [hmsg, hnext]; exact hi.idsEq
  · rw [hnext]; exact hi.nextPos
  · intro id; rw [hq, hstat id]; exact hi.queueMem id
  · rw [hq]; exact hi.queueSorted
  · intro pid hw'
    rw [hwrk] at hw'
    have huniq := hi.procChar.1 pid hw'
    intro id
    rw [hstat id]
    exact huniq id
  · intro hnp'
    have hnp : ∀ pid, s.worker ≠ .processing pid := by
      intro pid hc
      exact hnp' pid (by rw [hwrk]; exact hc)
    rcases hi.procChar.2 hnp with hnone | ⟨hfin, -, -⟩
    · left; intro id hc; rw [hstat id] at hc; exact hnone id hc
    · exact absurd hfin hnotfin
  · rw [hflag]
    constructor
    · intro hc; cases hc
    · intro hc; exact absurd hc hshne
  · intro hfin
    exact absurd hfin hnotfin'
  · intro id1 id2 st1 st2 hlt h1 h2
    rw [hstat id1] at h1
    rw [hstat id2] at h2
    exact hi.dcClosed id1 id2 st1 st2 hlt h1 h2

theorem inv_step_shutdownCall {s s' : QMState} (hi : Inv s)
    (hs : step s .shutdownCall = some s') : Inv s' := by
  simp only [step] at hs
  cases hsl : s.shLoc with
  | joining => rw [hsl] at hs; cases hs
  | cancelling => rw [hsl] at hs; cases hs
  | finished => rw [hsl] at hs; cases hs
  | notCalled =>
    rw [hsl] at hs
    injection hs with h
    refine inv_step_shutdownCtl hi (by rw [← h]) (by rw [← h]) (by rw [← h])
      (by rw [← h]) (by rw [← h]) ?_ (by rw [hsl]; simp) ?_
    · rw [show s'.shLoc = .joining from by rw [← h]]; simp
    · rw [show s'.shLoc = .joining from by rw [← h]]; simp

theorem inv_step_joinDone {s s' : QMState} (hi : Inv s)
    (hs : step s .joinDone = some s') : Inv s' := by
  simp only [step] at hs
  cases hsl : s.shLoc with
  | notCalled => rw [hsl] at hs; cases hs
  | cancelling => rw [hsl] at hs; cases hs
  | finished => rw [hsl] at hs; cases hs
  | joining =>
    rw [hsl] at hs
    by_cases hu : s.unfinished = 0
    · rw [if_pos hu] at hs
      injection hs with h
      refine inv_step_shutdownCtl hi (by rw [← h]) (by rw [← h]) (by rw [← h])
        (by rw [← h]) ?_ ?_ (by rw [hsl]; simp) ?_
      · rw [show s'.shutdown_flag = s.shutdown_flag from by rw [← h]]
        exact inv_flag_true hi (by rw [hsl]; simp)
      · rw [show s'.shLoc = .cancelling from by rw [← h]]; simp
      · rw [show s'.shLoc = .cancelling from by rw [← h]]; simp
    · rw [if_neg hu] at hs
      cases hs

theorem inv_step_joinTimeout {s s' : QMState} (hi : Inv s)
    (hs : step s .joinTimeout = some s') : Inv s' := by
  simp only [step] at hs
  cases hsl : s.shLoc with
  | notCalled => rw [hsl] at hs; cases hs
  | cancelling => rw [hsl] at hs; cases hs
  | finished => rw [hsl] at hs; cases hs
  | joining =>
    rw [hsl] at hs
    injection hs with h
    refine inv_step_shutdownCtl hi (by rw [← h]) (by rw [← h]) (by rw [← h])
      (by rw [← h]) ?_ ?_ (by rw [hsl]; simp) ?_
    · rw [show s'.shutdown_flag = s.shutdown_flag from by rw [← h]]
      exact inv_flag_true hi (by rw [hsl]; simp)
    · rw [show s'.shLoc = .cancelling from by rw [← h]]; simp
    · rw [show s'.shLoc = .cancelling from by rw [← h]]; simp

theorem inv_step_cancelFinish {s s' : QMState} (hi : Inv s)
    (hs : step s .cancelFinish = some s') : Inv s' := by
  simp only [step] at hs
  cases hsl : s.shLoc with
  | notCalled => rw [hsl] at hs; cases hs
  | joining => rw [hsl] at hs; cases hs
  | finished => rw [hsl] at hs; cases hs
  | cancelling =>
    rw [hsl] at hs
    have hflagpre : s.shutdown_flag = true :=
      inv_flag_true hi (by rw [hsl]; simp)
    have hcore : ∀ (hmsg : s'.messages = s.messages)
        (hq : s'.queue = s.queue)
        (hnext : s'.next_message_id = s.next_message_id)
        (hwrk : s'.worker = .idle)
        (hflag : s'.shutdown_flag = s.shutdown_flag)
        (hsh : s'.shLoc = .finished)
        (habandon : (∀ id, statusOf s id ≠ some .processing) ∨
          (∃ id, procUnique s id)), Inv s' := by
      intro hmsg hq hnext hwrk hflag hsh habandon
      have hstat : ∀ id, statusOf s' id = statusOf s id := by
        intro id
        show statusOfL s'.messages id = _
        rw [hmsg]
        rfl
      refine ⟨?_, ?_, ?_, ?_, ⟨?_, ?_⟩, ?_, ?_, ?_⟩
      · rw [hmsg, hnext]; exact hi.idsEq
      · rw [hnext]; exact hi.nextPos
      · intro id; rw [hq, hstat id]; exact hi.queueMem id
      · rw [hq]; exact hi.queueSorted
      · intro pid hw'
        rw [hwrk] at hw'
        cases hw'
      · intro _
        rcases habandon with hnone | ⟨id0, huniq⟩
        · left; intro id hc; rw [hstat id] at hc; exact hnone id hc
        · right
          refine ⟨hsh, id0, fun id => ?_⟩
          rw [hstat id]
          exact huniq id
      · rw [hflag, hflagpre, hsh]
        constructor
        · intro hc; cases hc
        · intro hc; cases hc
      · intro _
        rw [hwrk]
        left; rfl
      · intro id1 id2 st1 st2 hlt h1 h2
        rw [hstat id1] at h1
        rw [hstat id2] at h2
        exact hi.dcClosed id1 id2 st1 st2 hlt h1 h2
    cases hw : s.worker with
    | processing pid =>
      rw [hw] at hs
      injection hs with h
      exact hcore (by rw [← h]) (by rw [← h]) (by rw [← h]) (by rw [← h])
        (by rw [← h]) (by rw [← h])
        (Or.inr ⟨pid, hi.procChar.1 pid hw⟩)
    | idle =>
      rw [hw] at hs
      injection hs with h
      refine hcore (by rw [← h]) (by rw [← h]) (by rw [← h]) (by rw [← h])
        (by rw [← h]) (by rw [← h]) ?_
      have hnp : ∀ pid, s.worker ≠ .processing pid := by
        intro pid hc; rw [hw] at hc; cases hc
      rcases hi.procChar.2 hnp with hnone | ⟨-, id0, huniq⟩
      · exact Or.inl hnone
      · exact Or.inr ⟨id0, huniq⟩
    | loopTop =>
      rw [hw] at hs
      injection hs with h
      refine hcore (by rw [← h]) (by rw [← h]) (by rw [← h]) (by rw [← h])
        (by rw [← h]) (by rw [← h]) ?_
      have hnp : ∀ pid, s.worker ≠ .processing pid := by
        intro pid hc; rw [hw] at hc; cases hc
      rcases hi.procChar.2 hnp with hnone | ⟨-, id0, huniq⟩
      · exact Or.inl hnone
      · exact Or.inr ⟨id0, huniq⟩
    | gettingMsg =>
      rw [hw] at hs
      injection hs with h
      refine hcore (by rw [← h]) (by rw [← h]) (by rw [← h]) (by rw [← h])
        (by rw [← h]) (by rw [← h]) ?_
      have hnp : ∀ pid, s.worker ≠ .processing pid := by
        intro pid hc; rw [hw] at hc; cases hc
      rcases hi.procChar.2 hnp with hnone | ⟨-, id0, huniq⟩
      · exact Or.inl hnone
      · exact Or.inr ⟨id0, huniq⟩

/-- Every step of the queue manager preserves the invariant. -/
theorem inv_step {s s' : QMState} {e : Event} (hi : Inv s)
    (hs : step s e = some s') : Inv s' := by
  cases e with
  | enqueue c => exact inv_step_enqueue hi hs
  | workerLoopCheck => exact inv_step_workerLoopCheck hi hs
  | workerGet => exact inv_step_workerGet hi hs
  | workerGetTimeout => exact inv_step_workerGetTimeout hi hs
  | finishOk r => exact inv_step_finishOk hi hs
  | finishFail err => exact inv_step_finishFail hi hs
  | shutdownCall => exact inv_step_shutdownCall hi hs
  | joinDone => exact inv_step_joinDone hi hs
  | joinTimeout => exact inv_step_joinTimeout hi hs
  | cancelFinish => exact inv_step_cancelFinish hi hs

/-- The invariant holds along any event trace. -/
theorem inv_runTrace : ∀ (evs : List Event) (s0 s : QMState), Inv s0 →
    runTrace s0 evs = some s → Inv s := by
  intro evs
  induction evs with
  | nil =>
    intro s0 s hi hr
    rw [runTrace] at hr
    injection hr with h
    rw [← h]
    exact hi
  | cons e rest ih =>
    intro s0 s hi hr
    rw [runTrace] at hr
    cases hstep : step s0 e with
    | none => rw [hstep] at hr; cases hr
    | some s1 =>
      rw [hstep] at hr
      exact ih s1 s (inv_step hi hstep) hr

/-- How one step can change the status of a message: not at all, or along
one of the legal edges Queued → Processing → {Completed, Failed}. -/
theorem step_statusOf {s s' : QMState} {e : Event} (hi : Inv s)
    (hs : step s e = some s') (id : Nat) (st : MessageStatus)
    (h : statusOf s id = some st) :
    statusOf s' id = some st ∨
    (st = .queued ∧ statusOf s' id = some .processing) ∨
    (st = .processing ∧
      (statusOf s' id = some .completed ∨ statusOf s' id = some .failed)) := by
  cases e with
  | enqueue c =>
    simp only [step] at hs
    injection hs with hh
    left
    have hmsg : s'.messages = s.messages ++
        [{ message_id := s.next_message_id, content := c, status := .queued }] := by
      rw [← hh]
    show statusOfL s'.messages id = _
    rw [hmsg]
    exact statusOfL_append_of_some _ h
  | workerLoopCheck =>
    simp only [step] at hs
    cases hw : s.worker with
    | idle => rw [hw] at hs; cases hs
    | gettingMsg => rw [hw] at hs; cases hs
    | processing pid => rw [hw] at hs; cases hs
    | loopTop =>
      rw [hw] at hs
      injection hs with hh
      left
      show statusOfL s'.messages id = _
      rw [show s'.messages = s.messages from by rw [← hh]]
      exact h
  | workerGet =>
    simp only [step] at hs
    cases hw : s.worker with
    | idle => rw [hw] at hs; cases hs
    | loopTop => rw [hw] at hs; cases hs
    | processing pid => rw [hw] at hs; cases hs
    | gettingMsg =>
      rw [hw] at hs
      cases hqe : s.queue with
      | nil => rw [hqe] at hs; cases hs
      | cons hd rest =>
        rw [hqe] at hs
        injection hs with hh
        have hmsg : s'.messages = setStatus hd .processing none none s.messages := by
          rw [← hh]
        by_cases hid : id = hd
        · subst hid
          have hq : statusOf s id = some .queued :=
            (hi.queueMem id).mp (hqe ▸ List.mem_cons_self id rest)
          rw [h] at hq
          injection hq with hq
          right; left
          refine ⟨hq, ?_⟩
          show statusOfL s'.messages id = _
          rw [hmsg, statusOfL_setStatus_same,
            show statusOfL s.messages id = some st from h]
          rfl
        · left
          show statusOfL s'.messages id = _
          rw [hmsg, statusOfL_setStatus_other hid]
          exact h
  | workerGetTimeout =>
    simp only [step] at hs
    cases hw : s.worker with
    | idle => rw [hw] at hs; cases hs
    | loopTop => rw [hw] at hs; cases hs
    | processing pid => rw [hw] at hs; cases hs
    | gettingMsg =>
      rw [hw] at hs
      cases hqe : s.queue with
      | cons hd rest => rw [hqe] at hs; cases hs
      | nil =>
        rw [hqe] at hs
        injection hs with hh
        left
        show statusOfL s'.messages id = _
        rw [show s'.messages = s.messages from by rw [← hh]]
        exact h
  | finishOk r =>
    simp only [step] at hs
    cases hw : s.worker with
    | idle => rw [hw] at hs; cases hs
    | loopTop => rw [hw] at hs; cases hs
    | gettingMsg => rw [hw] at hs; cases hs
    | processing pid =>
      rw [hw] at hs
      injection hs with hh
      have hmsg : s'.messages = setStatus pid .completed none (some r) s.messages := by
        rw [← hh]
      by_cases hid : id = pid
      · rw [hid] at h
        have hp : statusOf s pid = some .processing :=
          procUnique_statusOf (hi.procChar.1 pid hw)
        rw [h] at hp
        injection hp with hp
        right; right
        refine ⟨hp, Or.inl ?_⟩
        show statusOfL s'.messages id = _
        rw [hid, hmsg, statusOfL_setStatus_same,
          show statusOfL s.messages pid = some st from h]
        rfl
      · left
        show statusOfL s'.messages id = _
        rw [hmsg, statusOfL_setStatus_other hid]
        exact h
  | finishFail err =>
    simp only [step] at hs
    cases hw : s.worker with
    | idle => rw [hw] at hs; cases hs
    | loopTop => rw [hw] at hs; cases hs
    | gettingMsg => rw [hw] at hs; cases hs
    | processing pid =>
      rw [hw] at hs
      injection hs with hh
      have hmsg : s'.messages = setStatus pid .failed (some err) none s.messages := by
        rw [← hh]
      by_cases hid : id = pid
      · rw [hid] at h
        have hp : statusOf s pid = some .processing :=
          procUnique_statusOf (hi.procChar.1 pid hw)
        rw [h] at hp
        injection hp with hp
        right; right
        refine ⟨hp, Or.inr ?_⟩
        show statusOfL s'.messages id = _
        rw [hid, hmsg, statusOfL_setStatus_same,
          show statusOfL s.messages pid = some st from h]
        rfl
      · left
        show statusOfL s'.messages id = _
        rw [hmsg, statusOfL_setStatus_other hid]
        exact h
  | shutdownCall =>
    simp only [step] at hs
    cases hsl : s.shLoc with
    | joining => rw [hsl] at hs; cases hs
    | cancelling => rw [hsl] at hs; cases hs
    | finished => rw [hsl] at hs; cases hs
    | notCalled =>
      rw [hsl] at hs
      injection hs with hh
      left
      show statusOfL s'.messages id = _
      rw [show s'.messages = s.messages from by rw [← hh]]
      exact h
  | joinDone =>
    simp only [step] at hs
    cases hsl : s.shLoc with
    | notCalled => rw [hsl] at hs; cases hs
    | cancelling => rw [hsl] at hs; cases hs
    | finished => rw [hsl] at hs; cases hs
    | joining =>
      rw [hsl] at hs
      by_cases hu : s.unfinished = 0
      · rw [if_pos hu] at hs
        injection hs with hh
        left
        show statusOfL s'.messages id = _
        rw [show s'.messages = s.messages from by rw [← hh]]
        exact h
      · rw [if_neg hu] at hs
        cases hs
  | joinTimeout =>
    simp only [step] at hs
    cases hsl : s.shLoc with
    | notCalled => rw [hsl] at hs; cases hs
    | cancelling => rw [hsl] at hs; cases hs
    | finished => rw [hsl] at hs; cases hs
    | joining =>
      rw [hsl] at hs
      injection hs with hh
      left
      show statusOfL s'.messages id = _
      rw [show s'.messages = s.messages from by rw [← hh]]
      exact h
  | cancelFinish =>
    simp only [step] at hs
    cases hsl : s.shLoc with
    | notCalled => rw [hsl] at hs; cases hs
    | joining => rw [hsl] at hs; cases hs
    | finished => rw [hsl] at hs; cases hs
    | cancelling =>
      rw [hsl] at hs
      cases hw : s.worker <;> rw [hw] at hs <;> injection hs with hh <;>
        left <;>
        show statusOfL s'.messages id = _ <;>
        rw [show s'.messages = s.messages from by rw [← hh]] <;>
        exact h

/-- Once `shutdown()` has returned, a step changes no message status and
the shutdown stays completed. -/
theorem frozen_step {s s' : QMState} {e : Event} (hi : Inv s)
    (hfin : s.shLoc = .finished) (hs : step s e = some s') :
    s'.shLoc = .finished ∧
    ∀ id st, statusOf s id = some st → statusOf s' id = some st := by
  cases e with
  | enqueue c =>
    simp only [step] at hs
    injection hs with hh
    refine ⟨by rw [show s'.shLoc = s.shLoc from by rw [← hh]]; exact hfin, ?_⟩
    intro id st h
    show statusOfL s'.messages id = _
    rw [show s'.messages = s.messages ++
      [{ message_id := s.next_message_id, content := c, status := .queued }] from
      by rw [← hh]]
    exact statusOfL_append_of_some _ h
  | workerLoopCheck =>
    simp only [step] at hs
    cases hw : s.worker with
    | idle => rw [hw] at hs; cases hs
    | gettingMsg => rw [hw] at hs; cases hs
    | processing pid => rw [hw] at hs; cases hs
    | loopTop =>
      rw [hw] at hs
      injection hs with hh
      refine ⟨by rw [show s'.shLoc = s.shLoc from by rw [← hh]]; exact hfin, ?_⟩
      intro id st h
      show statusOfL s'.messages id = _
      rw [show s'.messages = s.messages from by rw [← hh]]
      exact h
  | workerGet =>
    simp only [step] at hs
    cases hw : s.worker with
    | idle => rw [hw] at hs; cases hs
    | loopTop => rw [hw] at hs; cases hs
    | processing pid => rw [hw] at hs; cases hs
    | gettingMsg =>
      rcases hi.finishedWorker hfin with hww | hww <;> cases hww.symm.trans hw
  | workerGetTimeout =>
    simp only [step] at hs
    cases hw : s.worker with
    | idle => rw [hw] at hs; cases hs
    | loopTop => rw [hw] at hs; cases hs
    | processing pid => rw [hw] at hs; cases hs
    | gettingMsg =>
      rcases hi.finishedWorker hfin with hww | hww <;> cases hww.symm.trans hw
  | finishOk r =>
    simp only [step] at hs
    cases hw : s.worker with
    | idle => rw [hw] at hs; cases hs
    | loopTop => rw [hw] at hs; cases hs
    | gettingMsg => rw [hw] at hs; cases hs
    | processing pid =>
      rcases hi.finishedWorker hfin with hww | hww <;> cases hww.symm.trans hw
  | finishFail err =>
    simp only [step] at hs
    cases hw : s.worker with
    | idle => rw [hw] at hs; cases hs
    | loopTop => rw [hw] at hs; cases hs
    | gettingMsg => rw [hw] at hs; cases hs
    | processing pid =>
      rcases hi.finishedWorker hfin with hww | hww <;> cases hww.symm.trans hw
  | shutdownCall =>
    simp only [step] at hs
    rw [hfin] at hs
    cases hs
  | joinDone =>
    simp only [step] at hs
    rw [hfin] at hs
    cases hs
  | joinTimeout =>
    simp only [step] at hs
    rw [hfin] at hs
    cases hs
  | cancelFinish =>
    simp only [step] at hs
    rw [hfin] at hs
    cases hs

/-- Once `shutdown()` has returned, no later trace changes any message's
status. -/
theorem frozen_trace : ∀ (evs : List Event) (s s' : QMState), Inv s →
    s.shLoc = .finished → runTrace s evs = some s' →
    ∀ id st, statusOf s id = some st → statusOf s' id = some st := by
  intro evs
  induction evs with
  | nil =>
    intro s s' _ _ hr id st h
    rw [runTrace] at hr
    injection hr with hh
    rw [← hh]
    exact h
  | cons e rest ih =>
    intro s s' hi hfin hr id st h
    rw [runTrace] at hr
    cases hstep : step s e with
    | none => rw [hstep] at hr; cases hr
    | some s1 =>
      rw [hstep] at hr
      obtain ⟨hfin1, hpres⟩ := frozen_step hi hfin hstep
      exact ih s1 s' (inv_step hi hstep) hfin1 hr id st (hpres id st h)

/-- The worker's first loop check after shutdown makes it exit at once. -/
theorem step_workerLoopCheck_exit {s : QMState} (hw : s.worker = .loopTop)
    (hf : s.shutdown_flag = true) :
    step s .workerLoopCheck = some { s with worker := .idle } := by
  simp only [step]
  rw [hw, hf]
  rfl

/-! ## Claim theorems -/

/-- C1: if the update at index `k` is the first to fail validation in
`_commit_multi`, the function returns `(false, error, k)` with an empty
trace of repository calls: no `delete_file`, `write_file` or commit call
was made for any update, including the valid ones before `k`. -/
theorem commitMulti_atomic_on_first_failure
    (updates : List DocumentUpdate) (commit_message : List Char) (repo : Repo)
    (k : Nat) (uk : DocumentUpdate) (e : List Char)
    (hk : updates.get? k = some uk)
    (herr : validateUpdate repo uk = .error e)
    (hok : ∀ j u, j < k → updates.get? j = some u →
      ∃ a, validateUpdate repo u = .ok a) :
    commitMulti updates commit_message repo = (⟨false, some e, some k⟩, []) := by
  rw [commitMulti, validateAll_firstFail repo updates 0 [] [] k uk e hk herr hok]
  show ((⟨false, some e, some (0 + k)⟩ : MultiResult), ([] : List RepoOp)) = _
  rw [Nat.zero_add]

/-- Witness for C1: two updates, the first valid (a creation under
`projects/`), the second an invalid deletion; `_commit_multi` fails at
index 1 with no repository call. -/
theorem commitMulti_atomic_on_first_failure_witness :
    commitMulti
      [⟨"projects/a.md".toList, [⟨[], "hi".toList⟩], true, false⟩,
       ⟨"b.md".toList, [], false, true⟩]
      "msg".toList (⟨[]⟩ : Repo) =
    (⟨false, some (deleteMissingMsg "b.md".toList), some 1⟩, []) := by
  refine commitMulti_atomic_on_first_failure _ _ _ 1
    ⟨"b.md".toList, [], false, true⟩ _ rfl rfl ?_
  intro j u hj hu
  have hj0 : j = 0 := by omega
  subst hj0
  simp only [List.get?] at hu
  cases hu
  exact ⟨ValAction.write "projects/a.md".toList "hi".toList, rfl⟩

/-- C2: inside `_apply_edits`, an edit with non-empty search text raises an
`EditApplicationError` carrying the offending search text when the text
occurs zero times in the current buffer, and an error reporting the
occurrence count (and never a silent first-match replacement) when it
occurs two or more times. -/
theorem applyEdits_notFound_and_ambiguous
    (tf : List Char) (i : Nat) (buf : List Char) (e : Edit) (rest : List Edit)
    (hsb : e.search_block ≠ []) :
    (pyCount e.search_block buf = 0 →
      ∃ err, applyEditsFrom tf i buf (e :: rest) = .error err ∧
        err.search_block = e.search_block ∧
        occursIn notFoundPhrase err.message = true) ∧
    (2 ≤ pyCount e.search_block buf →
      ∃ err, applyEditsFrom tf i buf (e :: rest) = .error err ∧
        err.search_block = e.search_block ∧
        occursIn (natRepr (pyCount e.search_block buf)) err.message = true ∧
        occursIn multiplePhrase err.message = true) := by
  constructor
  · intro h0
    have hocc : occursIn e.search_block buf = false :=
      (pyCount_eq_zero_iff hsb).mp h0
    refine ⟨⟨notFoundMsg i buf e.search_block, tf, e.search_block⟩, ?_, rfl,
      notFoundPhrase_in_notFoundMsg ..⟩
    rw [applyEditsFrom, if_neg hsb, if_pos hocc]
  · intro h2
    have hocc : ¬ occursIn e.search_block buf = false := by
      intro hc
      have := (pyCount_eq_zero_iff hsb).mpr hc
      omega
    refine ⟨⟨ambiguousMsg i (pyCount e.search_block buf), tf, e.search_block⟩,
      ?_, rfl, count_in_ambiguousMsg .., multiplePhrase_in_ambiguousMsg ..⟩
    rw [applyEditsFrom, if_neg hsb, if_neg hocc, if_pos (by omega)]

/-- Witness for C2 at concrete inputs: a missing search text and a search
text occurring twice. -/
theorem applyEdits_notFound_and_ambiguous_witness :
    (∃ err, applyEditsFrom "f.md".toList 0 "abc".toList
        [⟨"zz".toList, "Y".toList⟩] = .error err ∧
      err.search_block = "zz".toList ∧
      occursIn notFoundPhrase err.message = true) ∧
    (∃ err, applyEditsFrom "f.md".toList 0 "abab".toList
        [⟨"ab".toList, "Y".toList⟩] = .error err ∧
      err.search_block = "ab".toList ∧
      occursIn (natRepr (pyCount "ab".toList "abab".toList)) err.message = true ∧
      occursIn multiplePhrase err.message = true) :=
  ⟨(applyEdits_notFound_and_ambiguous "f.md".toList 0 "abc".toList
      ⟨"zz".toList, "Y".toList⟩ [] (by decide)).1 (by decide),
   (applyEdits_notFound_and_ambiguous "f.md".toList 0 "abab".toList
      ⟨"ab".toList, "Y".toList⟩ [] (by decide)).2 (by decide)⟩

/-- C6: `_apply_edits` is the left fold of the spec's single-edit step
over the edit list starting from the original content (so edit `k` sees
the buffer produced by edit `k-1`, empty search text appends, and an
exactly-once search text has that single occurrence replaced). -/
theorem applyEdits_left_fold :
    (∀ (content : List Char) (u : DocumentUpdate),
      applyEdits content u = foldEditsCount u.target_file 0 content u.edits) ∧
    (∀ (sb rep buf : List Char), sb ≠ [] → pyCount sb buf = 1 →
      ∃ a b, buf = a ++ sb ++ b ∧ replaceOne sb rep buf = a ++ rep ++ b) := by
  constructor
  · intro content u
    exact applyEditsFrom_eq_foldEditsCount u.target_file u.edits 0 content
  · intro sb rep buf hsb h1
    cases sb with
    | nil => exact absurd rfl hsb
    | cons p ps =>
      have hocc : occursIn (p :: ps) buf = true := by
        cases hc : occursIn (p :: ps) buf
        · have hz := pyCountNE_eq_zero_iff.mpr hc
          simp only [pyCount] at h1
          omega
        · rfl
      exact replaceOneNE_decomp rep hocc

/-- Witness for C6: the fold equality at a concrete two-edit update, and
the single-occurrence replacement at a concrete buffer. -/
theorem applyEdits_left_fold_witness :
    (applyEdits "hello world".toList
        ⟨"f.md".toList, [⟨"world".toList, "there".toList⟩, ⟨[], "!".toList⟩],
         false, false⟩ =
      foldEditsCount "f.md".toList 0 "hello world".toList
        [⟨"world".toList, "there".toList⟩, ⟨[], "!".toList⟩]) ∧
    (∃ a b, "abc".toList = a ++ "b".toList ++ b ∧
      replaceOne "b".toList "X".toList "abc".toList = a ++ "X".toList ++ b) :=
  ⟨applyEdits_left_fold.1 "hello world".toList
      ⟨"f.md".toList, [⟨"world".toList, "there".toList⟩, ⟨[], "!".toList⟩],
       false, false⟩,
   applyEdits_left_fold.2 "b".toList "X".toList "abc".toList (by decide) (by decide)⟩

/-- C9: in `_commit_multi`, every update of a batch is validated against
the on-disk content, never against an earlier update's validated result;
consequently, in any successfully committed multi-file change containing
two non-delete updates of the same path `p` at positions `i < j`, `j` the
last position targeting `p`, both updates' validations apply their edits
to the original on-disk content, and the write phase performs exactly one
write for `p`, carrying the later update's result — the earlier update's
edits are absent from what is written for `p`. -/
theorem commitMulti_duplicate_path_last_update_wins
    (repo : Repo) (updates : List DocumentUpdate)
    (commit_message : List Char) (ops : List RepoOp)
    (i j : Nat) (ui uj : DocumentUpdate) (p orig : List Char)
    (hcm : commitMulti updates commit_message repo = (⟨true, none, none⟩, ops))
    (hij : i < j)
    (hgi : updates.get? i = some ui) (hgj : updates.get? j = some uj)
    (hpi : ui.target_file = p) (hpj : uj.target_file = p)
    (hdi : ui.delete_file = false) (hdj : uj.delete_file = false)
    (hlast : ∀ k uk, j < k → updates.get? k = some uk → uk.target_file ≠ p)
    (horig : repo.get_file_content p = some orig) :
    ∃ c1 c2, applyEdits orig ui = .ok c1 ∧ applyEdits orig uj = .ok c2 ∧
      RepoOp.writeFile p c2 ∈ ops ∧
      (∀ c', RepoOp.writeFile p c' ∈ ops → c' = c2) := by
  obtain ⟨vc', ftl', hva, hops⟩ := commitMulti_ok_inversion hcm
  obtain ⟨ai, hai⟩ := validateAll_ok_each repo updates 0 [] [] _ hva i ui hgi
  obtain ⟨c1, rfl⟩ := validateUpdate_write_shape hdi hai
  rw [hpi] at hai
  have hc1 : applyEdits orig ui = .ok c1 :=
    validateUpdate_write_applyEdits hdi hpi horig hai
  obtain ⟨c2, hvj, hfind⟩ :=
    validateAll_lastWrite repo p updates j uj 0 [] [] vc' ftl' hva hgj hpj
      hdj hlast
  have hc2 : applyEdits orig uj = .ok c2 :=
    validateUpdate_write_applyEdits hdj hpj horig hvj
  have hnd : (vc'.map (·.1)).Nodup :=
    validateAll_keys_nodup repo updates 0 [] [] vc' ftl' hva (by simp)
  have hmem : (p, c2) ∈ vc' := List.mem_of_find?_eq_some hfind
  refine ⟨c1, c2, hc1, hc2, ?_, ?_⟩
  · rw [hops]
    exact List.mem_append_left _
      (List.mem_append_right _ (List.mem_map.mpr ⟨(p, c2), hmem, rfl⟩))
  · intro c' hc'
    rw [hops] at hc'
    rcases List.mem_append.mp hc' with hc' | hc'
    · rcases List.mem_append.mp hc' with hc' | hc'
      · obtain ⟨q, -, hq⟩ := List.mem_map.mp hc'
        cases hq
      · obtain ⟨⟨q1, q2⟩, hpc, hq⟩ := List.mem_map.mp hc'
        injection hq with hq1 hq2
        have hq1' : q1 = p := hq1
        have hq2' : q2 = c' := hq2
        rw [hq1', hq2'] at hpc
        rw [find_eq_of_mem_of_keys_nodup hnd hpc] at hfind
        injection hfind with hfind
        injection hfind with hf1 hf2
    · rw [List.mem_singleton] at hc'
      cases hc'

/-- Witness for C9: a three-update batch — one update to a different file
followed by two updates to the same existing file — commits successfully;
both same-path updates apply their edits to the original content `"ab"`,
and the only write for that path carries the second same-path update's
result. -/
theorem commitMulti_duplicate_path_last_update_wins_witness :
    ∃ c1 c2,
      applyEdits "ab".toList
          ⟨"n.md".toList, [⟨"a".toList, "X".toList⟩], false, false⟩ =
        .ok c1 ∧
      applyEdits "ab".toList
          ⟨"n.md".toList, [⟨"b".toList, "Y".toList⟩], false, false⟩ =
        .ok c2 ∧
      RepoOp.writeFile "n.md".toList c2 ∈
        [RepoOp.writeFile "other.md".toList "zy".toList,
         RepoOp.writeFile "n.md".toList "aY".toList,
         RepoOp.commitMultiple ["other.md".toList, "n.md".toList]
           "m".toList []] ∧
      (∀ c', RepoOp.writeFile "n.md".toList c' ∈
        [RepoOp.writeFile "other.md".toList "zy".toList,
         RepoOp.writeFile "n.md".toList "aY".toList,
         RepoOp.commitMultiple ["other.md".toList, "n.md".toList]
           "m".toList []] → c' = c2) :=
  commitMulti_duplicate_path_last_update_wins
    (⟨[("n.md".toList, "ab".toList), ("other.md".toList, "xy".toList)]⟩ :
      Repo)
    [⟨"other.md".toList, [⟨"x".toList, "z".toList⟩], false, false⟩,
     ⟨"n.md".toList, [⟨"a".toList, "X".toList⟩], false, false⟩,
     ⟨"n.md".toList, [⟨"b".toList, "Y".toList⟩], false, false⟩]
    "m".toList
    [RepoOp.writeFile "other.md".toList "zy".toList,
     RepoOp.writeFile "n.md".toList "aY".toList,
     RepoOp.commitMultiple ["other.md".toList, "n.md".toList]
       "m".toList []]
    1 2
    ⟨"n.md".toList, [⟨"a".toList, "X".toList⟩], false, false⟩
    ⟨"n.md".toList, [⟨"b".toList, "Y".toList⟩], false, false⟩
    "n.md".toList "ab".toList
    rfl (by decide) rfl rfl rfl rfl rfl rfl
    (fun k uk hk h => by
      rw [List.get?_eq_none.mpr (by simp; omega)] at h
      cases h)
    rfl

/-- C3, counterexample to one part of the claim as stated: three
consecutive retryable commit failures do *not* make the workflow
terminate with the last error surfaced — after the third retryable
failure the loop retries a third time, and if that fourth attempt
succeeds, the run ends committed with no error.  (The code retries while
`retry_count < MAX_RETRIES`, and `retry_count` equals the number of
failures already seen minus one at decision time.) -/
theorem retry_three_failures_then_success_commits :
    runTail
      (fun k => if k < 3 then .failure "search_block not found".toList
        else .success)
      0 ⟨false, none, 0⟩ (MAX_RETRIES + 1) = some ⟨true, none, 3⟩ := by
  decide

/-- C3 (amended): the retry decision loops back only when the error text
is classified retryable and `retry_count < MAX_RETRIES`; every run of the
committer retry loop terminates within `MAX_RETRIES + 1` committer
attempts; and after `MAX_RETRIES + 1` consecutive retryable failures (the
initial attempt plus `MAX_RETRIES` retries) the loop ends in an
uncommitted state carrying the *last* attempt's error. -/
theorem retry_loop_bounded :
    (∀ s, should_retry s = "retry" →
      s.committed = false ∧ s.retry_count < MAX_RETRIES ∧
      ∃ e, s.error = some e ∧
        (occursIn notFoundPhrase e = true ∨ occursIn multiplePhrase e = true)) ∧
    (∀ (outcomes : Nat → Outcome) (k : Nat) (s : RetryState) (fuel : Nat),
      MAX_RETRIES < s.retry_count + fuel → 0 < fuel →
      ∃ r, runTail outcomes k s fuel = some r) ∧
    (∀ (outcomes : Nat → Outcome) (errs : Nat → List Char),
      (∀ j, j ≤ MAX_RETRIES → outcomes j = .failure (errs j) ∧ errs j ≠ [] ∧
        (occursIn notFoundPhrase (errs j) = true ∨
         occursIn multiplePhrase (errs j) = true)) →
      runTail outcomes 0 ⟨false, none, 0⟩ (MAX_RETRIES + 1) =
        some ⟨false, some (errs MAX_RETRIES), MAX_RETRIES⟩) := by
  refine ⟨?_, ?_, ?_⟩
  · intro s h
    obtain ⟨hc, hrc, e, herr, -, hph⟩ := should_retry_eq_retry_imp s h
    exact ⟨hc, hrc, e, herr, hph⟩
  · intro outcomes k s fuel
    induction fuel generalizing k s with
    | zero => intro _ h0; omega
    | succ f ih =>
      intro hsum _
      by_cases hr : should_retry (applyOutcome s (outcomes k)) = "retry"
      · rw [runTail_retry outcomes k s f hr]
        have hcnt := (should_retry_eq_retry_imp _ hr).2.1
        rw [applyOutcome_retry_count] at hcnt
        refine ih (k + 1) (retry_prep (applyOutcome s (outcomes k))) ?_ (by omega)
        show MAX_RETRIES < (applyOutcome s (outcomes k)).retry_count + 1 + f
        rw [applyOutcome_retry_count]
        omega
      · exact ⟨_, runTail_stop outcomes k s f hr⟩
  · intro outcomes errs h
    have e0 := h 0 (by decide)
    have e1 := h 1 (by decide)
    have e2 := h 2 (by decide)
    have e3 := h 3 (by decide)
    have s0 : applyOutcome ⟨false, none, 0⟩ (outcomes 0) =
        ⟨false, some (errs 0), 0⟩ := by rw [e0.1]; rfl
    have s1 : applyOutcome ⟨false, none, 1⟩ (outcomes 1) =
        ⟨false, some (errs 1), 1⟩ := by rw [e1.1]; rfl
    have s2 : applyOutcome ⟨false, none, 2⟩ (outcomes 2) =
        ⟨false, some (errs 2), 2⟩ := by rw [e2.1]; rfl
    have s3 : applyOutcome ⟨false, none, 3⟩ (outcomes 3) =
        ⟨false, some (errs 3), 3⟩ := by rw [e3.1]; rfl
    show runTail outcomes 0 ⟨false, none, 0⟩ (3 + 1) = some ⟨false, some (errs 3), 3⟩
    rw [runTail_retry outcomes 0 _ 3
      (by rw [s0]; exact should_retry_retry_of_phrase e0.2.1 e0.2.2 (by decide)), s0]
    show runTail outcomes 1 ⟨false, none, 1⟩ (2 + 1) = _
    rw [runTail_retry outcomes 1 _ 2
      (by rw [s1]; exact should_retry_retry_of_phrase e1.2.1 e1.2.2 (by decide)), s1]
    show runTail outcomes 2 ⟨false, none, 2⟩ (1 + 1) = _
    rw [runTail_retry outcomes 2 _ 1
      (by rw [s2]; exact should_retry_retry_of_phrase e2.2.1 e2.2.2 (by decide)), s2]
    show runTail outcomes 3 ⟨false, none, 3⟩ (0 + 1) = _
    rw [runTail_stop outcomes 3 _ 0
      (by rw [s3]; rw [should_retry_end_of_exhausted (by decide)]; decide), s3]

/-- Witness for C3 (amended): a run with no retry budget left terminates,
and the all-failures run surfaces the last error, at concrete inputs. -/
theorem retry_loop_bounded_witness :
    (∃ r, runTail (fun _ => .success) 0 ⟨false, none, 0⟩ 4 = some r) ∧
    runTail (fun _ => .failure "search_block not found".toList) 0
      ⟨false, none, 0⟩ (MAX_RETRIES + 1) =
      some ⟨false, some "search_block not found".toList, MAX_RETRIES⟩ :=
  ⟨retry_loop_bounded.2.1 (fun _ => .success) 0 ⟨false, none, 0⟩ 4
      (by decide) (by decide),
   retry_loop_bounded.2.2 (fun _ => .failure "search_block not found".toList)
      (fun _ => "search_block not found".toList)
      (fun j _ => ⟨rfl,
        by show "search_block not found".toList ≠ []; decide,
        Or.inl (by
          show occursIn notFoundPhrase "search_block not found".toList = true
          decide)⟩)⟩

/-- C7, counterexample to the claim as stated: a missing file created
with `create_if_missing = true` outside `projects/` yields the guardrail
error, but if the target path itself contains the text
`search_block not found` the guardrail error *is* classified retryable by
`_should_retry` (which substring-matches the error text), so the pipeline
loops back to generate instead of terminating. -/
theorem guardrail_error_can_be_retryable :
    commitMulti [⟨"search_block not found.md".toList, [], true, false⟩]
        "m".toList (⟨[]⟩ : Repo) =
      (⟨false, some (guardrailMsg "search_block not found.md".toList), some 0⟩,
        []) ∧
    should_retry
        ⟨false, some (guardrailMsg "search_block not found.md".toList), 0⟩ =
      "retry" := by
  constructor
  · decide
  · decide

/-- C7 (amended): a `DocumentUpdate` whose target file does not exist is
an error (never a silent no-op) with nothing written: with
`create_if_missing = false` the committer fails with the missing-file
error, and with `create_if_missing = true` and a target outside
`projects/` it fails with the guardrail error; the guardrail error is not
classified retryable by `_should_retry` provided the target path itself
contains neither of the two retryable phrases (a path embedding such a
phrase leaks it into the error text and defeats the classification). -/
theorem committer_missing_file_and_guardrail
    (repo : Repo) (u : DocumentUpdate) (commit_message : List Char)
    (hd : u.delete_file = false)
    (hmiss : repo.get_file_content u.target_file = none) :
    (u.create_if_missing = false →
      commitMulti [u] commit_message repo =
        (⟨false, some (createMissingMsg u.target_file), some 0⟩, [])) ∧
    (u.create_if_missing = true →
      startsWith "projects/".toList u.target_file = false →
      commitMulti [u] commit_message repo =
        (⟨false, some (guardrailMsg u.target_file), some 0⟩, []) ∧
      (occursIn notFoundPhrase u.target_file = false →
        occursIn multiplePhrase u.target_file = false →
        ∀ rc, should_retry ⟨false, some (guardrailMsg u.target_file), rc⟩ =
          "end")) := by
  have hfail : ∀ e, validateUpdate repo u = .error e →
      commitMulti [u] commit_message repo = (⟨false, some e, some 0⟩, []) := by
    intro e hv
    rw [commitMulti, validateAll_firstFail repo [u] 0 [] [] 0 u e rfl hv
      (fun j v hj _ => absurd hj (Nat.not_lt_zero j))]
  constructor
  · intro hcim
    refine hfail _ ?_
    rw [validateUpdate, if_neg (by simp [hd]), hmiss]
    show (if u.create_if_missing = false then
        Except.error (createMissingMsg u.target_file)
      else if startsWith "projects/".toList u.target_file = false then
        Except.error (guardrailMsg u.target_file)
      else match applyEdits [] u with
        | .error e => Except.error e.message
        | .ok new_content => Except.ok (ValAction.write u.target_file new_content)) = _
    rw [if_pos hcim]
  · intro hcim hsw
    constructor
    · refine hfail _ ?_
      rw [validateUpdate, if_neg (by simp [hd]), hmiss]
      show (if u.create_if_missing = false then
          Except.error (createMissingMsg u.target_file)
        else if startsWith "projects/".toList u.target_file = false then
          Except.error (guardrailMsg u.target_file)
        else match applyEdits [] u with
          | .error e => Except.error e.message
          | .ok new_content => Except.ok (ValAction.write u.target_file new_content)) = _
      rw [if_neg (by simp [hcim]), if_pos hsw]
    · intro h1 h2 rc
      obtain ⟨hg1, hg2⟩ := guardrailMsg_no_phrase h1 h2
      exact should_retry_end_of_no_phrase rc hg1 hg2

/-- Witness for C7 (amended) at concrete inputs: a missing file with
`create_if_missing = false`, and a guardrail violation at `notes/x.md`
whose error is classified non-retryable. -/
theorem committer_missing_file_and_guardrail_witness :
    (commitMulti [⟨"a.md".toList, [], false, false⟩] "m".toList (⟨[]⟩ : Repo) =
      (⟨false, some (createMissingMsg "a.md".toList), some 0⟩, [])) ∧
    (commitMulti [⟨"notes/x.md".toList, [], true, false⟩] "m".toList
        (⟨[]⟩ : Repo) =
      (⟨false, some (guardrailMsg "notes/x.md".toList), some 0⟩, [])) ∧
    should_retry ⟨false, some (guardrailMsg "notes/x.md".toList), 0⟩ = "end" := by
  refine ⟨(committer_missing_file_and_guardrail (⟨[]⟩ : Repo)
      ⟨"a.md".toList, [], false, false⟩ "m".toList rfl rfl).1 rfl, ?_⟩
  have h := (committer_missing_file_and_guardrail (⟨[]⟩ : Repo)
      ⟨"notes/x.md".toList, [], true, false⟩ "m".toList rfl rfl).2 rfl (by decide)
  exact ⟨h.1, h.2 (by decide) (by decide) 0⟩

/-- C4: in every reachable state of the queue manager, at most one message
holds `PROCESSING` status, and a step only ever moves a message's status
along Queued → Processing → {Completed, Failed} (otherwise the status is
unchanged). -/
theorem queue_single_processing_and_legal_transitions :
    ∀ (evs : List Event) (s : QMState), runTrace initQM evs = some s →
      (∀ m1, m1 ∈ s.messages → ∀ m2, m2 ∈ s.messages →
        m1.status = .processing → m2.status = .processing → m1 = m2) ∧
      (∀ (e : Event) (s' : QMState) (id : Nat) (st st' : MessageStatus),
        step s e = some s' →
        statusOf s id = some st → statusOf s' id = some st' →
        st' = st ∨ (st = .queued ∧ st' = .processing) ∨
          (st = .processing ∧ (st' = .completed ∨ st' = .failed))) := by
  intro evs s hr
  have hi := inv_runTrace evs initQM s inv_init hr
  constructor
  · intro m1 h1 m2 h2 hp1 hp2
    have hs1 : statusOf s m1.message_id = some .processing := by
      have := statusOfL_of_mem (inv_nodup hi) h1
      rw [hp1] at this
      exact this
    have hs2 : statusOf s m2.message_id = some .processing := by
      have := statusOfL_of_mem (inv_nodup hi) h2
      rw [hp2] at this
      exact this
    have hid : m1.message_id = m2.message_id := by
      cases hw : s.worker with
      | processing pid =>
        have huniq := hi.procChar.1 pid hw
        rw [(huniq _).mp hs1, (huniq _).mp hs2]
      | idle =>
        have hnp : ∀ pid, s.worker ≠ .processing pid := by
          intro pid hc; rw [hw] at hc; cases hc
        rcases hi.procChar.2 hnp with hnone | ⟨-, id0, huniq⟩
        · exact absurd hs1 (hnone _)
        · rw [(huniq _).mp hs1, (huniq _).mp hs2]
      | loopTop =>
        have hnp : ∀ pid, s.worker ≠ .processing pid := by
          intro pid hc; rw [hw] at hc; cases hc
        rcases hi.procChar.2 hnp with hnone | ⟨-, id0, huniq⟩
        · exact absurd hs1 (hnone _)
        · rw [(huniq _).mp hs1, (huniq _).mp hs2]
      | gettingMsg =>
        have hnp : ∀ pid, s.worker ≠ .processing pid := by
          intro pid hc; rw [hw] at hc; cases hc
        rcases hi.procChar.2 hnp with hnone | ⟨-, id0, huniq⟩
        · exact absurd hs1 (hnone _)
        · rw [(huniq _).mp hs1, (huniq _).mp hs2]
    exact eq_of_mem_of_id_eq (inv_nodup hi) h1 h2 hid
  · intro e s' id st st' hstep h h'
    rcases step_statusOf hi hstep id st h with h1 | ⟨hq1, h1⟩ | ⟨hp1, h1⟩
    · left
      rw [h1] at h'
      injection h' with hh
      exact hh.symm
    · right; left
      refine ⟨hq1, ?_⟩
      rw [h1] at h'
      injection h' with hh
      exact hh.symm
    · right; right
      refine ⟨hp1, ?_⟩
      rcases h1 with h1 | h1 <;> rw [h1] at h' <;> injection h' with hh
      · exact Or.inl hh.symm
      · exact Or.inr hh.symm

/-- Witness for C4 at the concrete trace enqueue–check–get: message 1 is
processing and the conclusions hold in that state. -/
theorem queue_single_processing_and_legal_transitions_witness :
    ∃ s, runTrace initQM
        [.enqueue "a".toList, .workerLoopCheck, .workerGet] = some s ∧
      ((∀ m1, m1 ∈ s.messages → ∀ m2, m2 ∈ s.messages →
        m1.status = .processing → m2.status = .processing → m1 = m2) ∧
      (∀ (e : Event) (s' : QMState) (id : Nat) (st st' : MessageStatus),
        step s e = some s' →
        statusOf s id = some st → statusOf s' id = some st' →
        st' = st ∨ (st = .queued ∧ st' = .processing) ∨
          (st = .processing ∧ (st' = .completed ∨ st' = .failed)))) :=
  ⟨_, rfl, queue_single_processing_and_legal_transitions
    [.enqueue "a".toList, .workerLoopCheck, .workerGet] _ rfl⟩

/-- C5: ids are assigned sequentially from 1 and never reused (in every
reachable state the messages hold, in insertion order, exactly the ids
`1, …, next_message_id - 1`); an enqueue records the next id as `QUEUED`
and increments the counter; and processing starts in id order: whenever a
higher id has left `QUEUED`, every lower id has too. -/
theorem queue_fifo_ids :
    ∀ (evs : List Event) (s : QMState), runTrace initQM evs = some s →
      s.messages.map (·.message_id) = List.range' 1 (s.next_message_id - 1) ∧
      (∀ content, ∃ s', step s (.enqueue content) = some s' ∧
        statusOf s' s.next_message_id = some .queued ∧
        s'.next_message_id = s.next_message_id + 1) ∧
      (∀ m1, m1 ∈ s.messages → ∀ m2, m2 ∈ s.messages →
        m1.message_id < m2.message_id → m2.status ≠ .queued →
        m1.status ≠ .queued) := by
  intro evs s hr
  have hi := inv_runTrace evs initQM s inv_init hr
  refine ⟨hi.idsEq, ?_, ?_⟩
  · intro content
    refine ⟨_, rfl, ?_, rfl⟩
    show statusOfL (s.messages ++
      [{ message_id := s.next_message_id, content := content, status := .queued }])
      s.next_message_id = _
    rw [statusOfL_append_of_none _ (statusOf_next_none hi)]
    simp [statusOfL, List.find?]
  · intro m1 h1 m2 h2 hlt hne
    have hs1 : statusOf s m1.message_id = some m1.status :=
      statusOfL_of_mem (inv_nodup hi) h1
    have hs2 : statusOf s m2.message_id = some m2.status :=
      statusOfL_of_mem (inv_nodup hi) h2
    exact hi.dcClosed m1.message_id m2.message_id m1.status m2.status hlt
      hs1 hs2 hne

/-- Witness for C5 at a concrete trace with two messages, the first of
which has started processing. -/
theorem queue_fifo_ids_witness :
    ∃ s, runTrace initQM
        [.enqueue "a".toList, .enqueue "b".toList, .workerLoopCheck,
         .workerGet] = some s ∧
      (s.messages.map (·.message_id) = List.range' 1 (s.next_message_id - 1) ∧
      (∀ content, ∃ s', step s (.enqueue content) = some s' ∧
        statusOf s' s.next_message_id = some .queued ∧
        s'.next_message_id = s.next_message_id + 1) ∧
      (∀ m1, m1 ∈ s.messages → ∀ m2, m2 ∈ s.messages →
        m1.message_id < m2.message_id → m2.status ≠ .queued →
        m1.status ≠ .queued)) :=
  ⟨_, rfl, queue_fifo_ids
    [.enqueue "a".toList, .enqueue "b".toList, .workerLoopCheck, .workerGet]
    _ rfl⟩

/-- C8, counterexample to the claim as stated: if the join timeout elapses
while a message is in flight, `shutdown` cancels the worker *mid-processing*
— after shutdown completes, message 1 is still `PROCESSING`, having
reached neither `Completed` nor `Failed` (the `CancelledError` is not an
`Exception`, so neither status assignment runs). -/
theorem shutdown_timeout_abandons_inflight :
    runTrace initQM
      [.enqueue "a".toList, .workerLoopCheck, .workerGet, .shutdownCall,
       .joinTimeout, .cancelFinish] =
      some { queue := [], unfinished := 0,
             messages := [{ message_id := 1, content := "a".toList,
                            status := .processing }],
             next_message_id := 2, worker := .idle, shutdown_flag := true,
             shLoc := .finished } ∧
    statusOf { queue := [], unfinished := 0,
               messages := [{ message_id := 1, content := "a".toList,
                              status := .processing }],
               next_message_id := 2, worker := .idle, shutdown_flag := true,
               shLoc := .finished } 1 = some .processing :=
  ⟨rfl, rfl⟩

/-- C8 (amended): `shutdown(timeout)` lets the in-flight message finish
only if it finishes before the timeout; if the timeout elapses first the
worker is cancelled mid-processing and the in-flight message stays in
`PROCESSING` forever.  Once shutdown has completed, *no* message's status
ever changes again: a message still `Queued` remains `Queued` in every
subsequent state (it is never transitioned to `Failed`), and an abandoned
`Processing` message remains `Processing`. -/
theorem shutdown_completed_statuses_frozen :
    ∀ (evs : List Event) (s : QMState), runTrace initQM evs = some s →
      s.shLoc = .finished →
      ∀ (evs2 : List Event) (s' : QMState), runTrace s evs2 = some s' →
        ∀ id st, statusOf s id = some st → statusOf s' id = some st :=
  fun evs s hr hfin evs2 s' hr2 id st h =>
    frozen_trace evs2 s s' (inv_runTrace evs initQM s inv_init hr) hfin hr2
      id st h

/-- Witness for C8 (amended): after a completed shutdown that abandoned
message 1 in the queue, a later enqueue and worker restart leave message 1
`QUEUED`. -/
theorem shutdown_completed_statuses_frozen_witness :
    statusOf { queue := [1, 2], unfinished := 2,
               messages := [{ message_id := 1, content := "a".toList,
                              status := .queued },
                            { message_id := 2, content := "b".toList,
                              status := .queued }],
               next_message_id := 3, worker := .idle, shutdown_flag := true,
               shLoc := .finished } 1 = some .queued :=
  shutdown_completed_statuses_frozen
    [.enqueue "a".toList, .shutdownCall, .joinTimeout, .cancelFinish]
    { queue := [1], unfinished := 1,
      messages := [{ message_id := 1, content := "a".toList, status := .queued }],
      next_message_id := 2, worker := .idle, shutdown_flag := true,
      shLoc := .finished }
    rfl rfl
    [.enqueue "b".toList, .workerLoopCheck]
    { queue := [1, 2], unfinished := 2,
      messages := [{ message_id := 1, content := "a".toList, status := .queued },
                   { message_id := 2, content := "b".toList, status := .queued }],
      next_message_id := 3, worker := .idle, shutdown_flag := true,
      shLoc := .finished }
    rfl 1 .queued rfl

/-- C10, counterexample to the claim as stated: a message enqueued after
`shutdown` has been invoked *can* still be dequeued and processed — if the
old worker task is parked on `queue.get` (so `enqueue_message` does not
restart it, and the flag is only checked at the loop top), the put wakes
it and the new message enters `PROCESSING`. -/
theorem enqueue_after_shutdown_can_be_processed :
    runTrace initQM
      [.enqueue "a".toList, .workerLoopCheck, .workerGet,
       .finishOk "ok".toList, .workerLoopCheck, .shutdownCall,
       .enqueue "b".toList, .workerGet] =
      some { queue := [], unfinished := 1,
             messages := [{ message_id := 1, content := "a".toList,
                            status := .completed, error := none,
                            result := some "ok".toList },
                          { message_id := 2, content := "b".toList,
                            status := .processing }],
             next_message_id := 3, worker := .processing 2,
             shutdown_flag := true, shLoc := .joining } ∧
    statusOf { queue := [], unfinished := 1,
               messages := [{ message_id := 1, content := "a".toList,
                              status := .completed, error := none,
                              result := some "ok".toList },
                            { message_id := 2, content := "b".toList,
                              status := .processing }],
               next_message_id := 3, worker := .processing 2,
               shutdown_flag := true, shLoc := .joining } 2 = some .processing :=
  ⟨rfl, rfl⟩

/-- C10 (amended): once `shutdown` has *completed* (the worker task is
done), `enqueue_message` still succeeds: it records the next sequential id
as `QUEUED` and increments the counter; the worker task it restarts exits
at its first loop check because the shutdown flag is still set; and the
new message is never dequeued — it stays `QUEUED` in every subsequent
state.  (If the old worker is still parked on `queue.get` when shutdown is
merely invoked, the message may instead be processed.) -/
theorem enqueue_after_shutdown_completed :
    ∀ (evs : List Event) (s : QMState) (content : List Char),
      runTrace initQM evs = some s → s.shLoc = .finished →
      ∃ s', step s (.enqueue content) = some s' ∧
        s'.next_message_id = s.next_message_id + 1 ∧
        statusOf s' s.next_message_id = some .queued ∧
        (s.worker = .idle → s'.worker = .loopTop ∧
          step s' .workerLoopCheck = some { s' with worker := .idle }) ∧
        (∀ (evs2 : List Event) (s'' : QMState), runTrace s' evs2 = some s'' →
          statusOf s'' s.next_message_id = some .queued) := by
  intro evs s content hr hfin
  have hi := inv_runTrace evs initQM s inv_init hr
  have hflag : s.shutdown_flag = true :=
    inv_flag_true hi (by rw [hfin]; simp)
  have hqd : statusOf
      { s with
        next_message_id := s.next_message_id + 1,
        messages := s.messages ++
          [{ message_id := s.next_message_id, content := content,
             status := .queued }],
        queue := s.queue ++ [s.next_message_id],
        unfinished := s.unfinished + 1,
        worker := if s.worker = .idle then .loopTop else s.worker }
      s.next_message_id = some .queued := by
    show statusOfL (s.messages ++ _) _ = _
    rw [statusOfL_append_of_none _ (statusOf_next_none hi)]
    simp [statusOfL, List.find?]
  refine ⟨_, rfl, rfl, hqd, ?_, ?_⟩
  · intro hidle
    have hwrk : (if s.worker = .idle then WorkerLoc.loopTop else s.worker) =
        .loopTop := by rw [if_pos hidle]
    exact ⟨hwrk, step_workerLoopCheck_exit hwrk hflag⟩
  · intro evs2 s'' hr2
    have hi' : Inv _ := inv_step hi
      (show step s (.enqueue content) = some _ from rfl)
    exact frozen_trace evs2 _ s'' hi' hfin hr2 _ _ hqd

/-- Witness for C10 (amended): enqueuing after a fully completed shutdown
on an empty queue manager. -/
theorem enqueue_after_shutdown_completed_witness :
    ∃ s', step { queue := [], unfinished := 0, messages := [],
                 next_message_id := 1, worker := .idle, shutdown_flag := true,
                 shLoc := .finished } (.enqueue "x".toList) = some s' ∧
      s'.next_message_id = 1 + 1 ∧
      statusOf s' 1 = some .queued ∧
      (({ queue := [], unfinished := 0, messages := [],
          next_message_id := 1, worker := .idle, shutdown_flag := true,
          shLoc := .finished } : QMState).worker = .idle →
        s'.worker = .loopTop ∧
        step s' .workerLoopCheck = some { s' with worker := .idle }) ∧
      (∀ (evs2 : List Event) (s'' : QMState), runTrace s' evs2 = some s'' →
        statusOf s'' 1 = some .queued) :=
  enqueue_after_shutdown_completed
    [.shutdownCall, .joinDone, .cancelFinish]
    { queue := [], unfinished := 0, messages := [], next_message_id := 1,
      worker := .idle, shutdown_flag := true, shLoc := .finished }
    "x".toList rfl rfl

end Laibrary
